import Mathlib

/-!
# Verification of the batched machine-translation pipeline

Shallow embedding of the translation-maintenance scripts of this repository
(`batch_translate_visible_nodes.py`, `complete_arabic_translations.py`,
`complete_existing_course_translations.py`, `fix_arabic_js_strings.py`,
`sync_translate_from_source.py`).  Python strings are modelled as `List Char`;
Python dicts used as translation caches are modelled as association lists where
the most recent write is at the head; the network is modelled as an explicit
oracle function threaded through the state-passing translation of the code.
-/

set_option maxHeartbeats 1000000
set_option maxRecDepth 100000

namespace Synthesis

/-! ## Characters and basic string operations -/

/-- Python whitespace (`\s`, `str.strip`, `str.split`) restricted to the ASCII
range, which covers every character these scripts treat as whitespace. -/
def isPySpace (c : Char) : Bool :=
  c = ' ' || c = Char.ofNat 9 || c = Char.ofNat 10 || c = Char.ofNat 11 ||
    c = Char.ofNat 12 || c = Char.ofNat 13

/-- ASCII letter test, mirroring the explicit `("A" <= ch <= "Z") or ("a" <= ch <= "z")`
comparisons in the sources. -/
def isAsciiLetter (c : Char) : Bool :=
  (decide ('A' ≤ c) && decide (c ≤ 'Z')) || (decide ('a' ≤ c) && decide (c ≤ 'z'))

/-- Characters of the Arabic blocks tested by `has_arabic` in
`complete_arabic_translations.py` (four ranges). -/
def isArabicCharCA (c : Char) : Bool :=
  (decide (Char.ofNat 0x0600 ≤ c) && decide (c ≤ Char.ofNat 0x06ff)) ||
  (decide (Char.ofNat 0x0750 ≤ c) && decide (c ≤ Char.ofNat 0x077f)) ||
  (decide (Char.ofNat 0xfb50 ≤ c) && decide (c ≤ Char.ofNat 0xfdff)) ||
  (decide (Char.ofNat 0xfe70 ≤ c) && decide (c ≤ Char.ofNat 0xfeff))

/-- Characters of the Arabic blocks tested by `has_arabic` in
`fix_arabic_js_strings.py` (two ranges). -/
def isArabicCharFX (c : Char) : Bool :=
  (decide (Char.ofNat 0x0600 ≤ c) && decide (c ≤ Char.ofNat 0x06ff)) ||
  (decide (Char.ofNat 0x0750 ≤ c) && decide (c ≤ Char.ofNat 0x077f))

/-- Model of the Python unicode `str.isalpha` method over the character ranges that occur
in this repository: ASCII letters, Latin-1/Latin-Extended letters, and the
Arabic blocks. -/
def isAlphaPy (c : Char) : Bool :=
  c.isAlpha ||
  (decide (Char.ofNat 0xc0 ≤ c) && decide (c ≤ Char.ofNat 0x24f) &&
    !(c = Char.ofNat 0xd7) && !(c = Char.ofNat 0xf7)) ||
  isArabicCharCA c

/-- Model of the Python regex `\w` (word character) over the same ranges. -/
def isWordCharPy (c : Char) : Bool :=
  isAlphaPy c || c.isDigit || c = '_'

/-- Folding of smart quotes done at the start of `normalize` in
`batch_translate_visible_nodes.py`, `complete_existing_course_translations.py`
and `sync_translate_from_source.py`:
`s.replace(u2019, u27).replace(u2018, u27)` (both smart quotes become the plain apostrophe). -/
def foldQuote (c : Char) : Char :=
  if c = Char.ofNat 0x2019 then Char.ofNat 39
  else if c = Char.ofNat 0x2018 then Char.ofNat 39
  else c

/-- `str.lstrip()`. -/
def lstripWS (l : List Char) : List Char := l.dropWhile isPySpace

/-- `str.rstrip()`. -/
def rstripWS (l : List Char) : List Char := (l.reverse.dropWhile isPySpace).reverse

/-- `str.strip()`. -/
def stripWS (l : List Char) : List Char := rstripWS (lstripWS l)

/-- `re.sub(r"\s+", " ", text)`: every maximal whitespace run becomes a single
space.  The boolean argument records whether the previous character was
whitespace (i.e. we are inside a run that already emitted its space). -/
def squeezeAux : Bool → List Char → List Char
  | _, [] => []
  | inRun, c :: cs =>
      if isPySpace c then
        (if inRun then [] else [' ']) ++ squeezeAux true cs
      else c :: squeezeAux false cs

def squeezeWS (l : List Char) : List Char := squeezeAux false l

/-- `normalize` of `batch_translate_visible_nodes.py`,
`complete_existing_course_translations.py` and `sync_translate_from_source.py`:
fold smart quotes, collapse whitespace runs, strip. -/
def normalizeCE (l : List Char) : List Char :=
  stripWS (squeezeWS (l.map foldQuote))

/-- `normalize` of `complete_arabic_translations.py` and
`fix_arabic_js_strings.py`: collapse whitespace runs and strip (no smart-quote
folding). -/
def normalizeAr (l : List Char) : List Char :=
  stripWS (squeezeWS l)

/-! ## Leading/trailing whitespace slicing of the DOM rewriter

`process_file` in `batch_translate_visible_nodes.py` (and identically in
`complete_arabic_translations.py`, `complete_existing_course_translations.py`,
`sync_translate_from_source.py`) computes
`leading = raw[: len(raw) - len(raw.lstrip())]` and
`trailing = raw[len(raw.rstrip()) :]` and rebuilds the replacement as
`f"{leading}{tr}{trailing}"`. -/

def leadingOf (raw : List Char) : List Char :=
  raw.take (raw.length - (lstripWS raw).length)

def trailingOf (raw : List Char) : List Char :=
  raw.drop (rstripWS raw).length

/-- The replacement string built by the rewriter for a node whose original text
is `raw` and whose translated inner payload is `tr`. -/
def replacementFor (raw tr : List Char) : List Char :=
  leadingOf raw ++ tr ++ trailingOf raw

/-! ## JS string literal re-escaping -/

/-- The backslash character. -/
def bslChar : Char := Char.ofNat 92

/-- The single-quote character. -/
def squoChar : Char := Char.ofNat 39

/-- The double-quote character. -/
def dquoChar : Char := Char.ofNat 34

/-- The newline character. -/
def nlChar : Char := Char.ofNat 10

/-- Python `str.replace(old, new)` for a single-character `old`. -/
def pyReplaceChar (old : Char) (new : List Char) : List Char → List Char
  | [] => []
  | x :: xs => (if x = old then new else [x]) ++ pyReplaceChar old new xs

/-- `escape_js_literal` of `complete_existing_course_translations.py`:
escape backslashes, then escape the quote character matching the delimiter
of the literal.  (It performs no newline handling.) -/
def escape_js_literal (text : List Char) (quote : Char) : List Char :=
  let t := pyReplaceChar bslChar [bslChar, bslChar] text
  if quote = squoChar then pyReplaceChar squoChar [bslChar, squoChar] t
  else pyReplaceChar dquoChar [bslChar, dquoChar] t

/-- `escape_js` of `fix_arabic_js_strings.py`: like `escape_js_literal` but it
additionally escapes newlines and carriage returns. -/
def escape_js (text : List Char) (quote : Char) : List Char :=
  let t := pyReplaceChar bslChar [bslChar, bslChar] text
  let t2 := if quote = squoChar then pyReplaceChar squoChar [bslChar, squoChar] t
            else pyReplaceChar dquoChar [bslChar, dquoChar] t
  let t3 := pyReplaceChar nlChar [bslChar, 'n'] t2
  pyReplaceChar (Char.ofNat 13) [bslChar, 'r'] t3

/-- Per-character escaping for a given quote style: backslash and the quote are
escaped, everything else is unchanged. -/
def escCharFor (quote c : Char) : List Char :=
  if c = bslChar then [bslChar, bslChar]
  else if c = quote then [bslChar, c]
  else [c]

/-! ## The word regex

All classifiers share the regex `\b[A-Za-z][A-Za-z'\-]{2,}\b` (`WORDS_RE`);
`fix_arabic_js_strings.py` uses the variant with `{1,}`.  The matcher below
implements `re.findall` for this pattern: at a position preceded by a non-word
character, take the maximal run of word-body characters starting with an ASCII
letter, then backtrack to the longest prefix of the run (of at least the
minimum length) that ends at a `\b` boundary. -/

/-- The regex body class `[A-Za-z'\-]`. -/
def isBodyChar (c : Char) : Bool :=
  isAsciiLetter c || c = squoChar || c = '-'

/-- Whether a `\b` boundary holds between the last character of `seg` and the
first character of what follows (`none` = end of string). -/
def boundaryAtBreak (run rest : List Char) (k : Nat) : Bool :=
  match (run.take k).getLast? with
  | none => false
  | some a =>
      match (run.drop k ++ rest).head? with
      | none => isWordCharPy a
      | some b => isWordCharPy a != isWordCharPy b

/-- Longest `k` with `minLen ≤ k ≤ bound` such that cutting the run after `k`
characters lands on a word boundary (regex backtracking for the final `\b`). -/
def bestBreakAux (minLen : Nat) (run rest : List Char) : Nat → Option Nat
  | 0 => none
  | k + 1 =>
      if k + 1 < minLen then none
      else if boundaryAtBreak run rest (k + 1) then some (k + 1)
      else bestBreakAux minLen run rest k

def bestBreak (minLen : Nat) (run rest : List Char) : Option Nat :=
  bestBreakAux minLen run rest run.length

/-- `re.findall` for `\b[A-Za-z][A-Za-z'\-]{minBody,}\b`.  The boolean argument
tells whether the previous character was a word character (for the leading
`\b`); the fuel argument strictly exceeds the list length at the top call and
every recursive call shrinks the list. -/
def findWordsFuel (minBody : Nat) : Nat → Bool → List Char → List (List Char)
  | 0, _, _ => []
  | _ + 1, _, [] => []
  | fuel + 1, prevWord, c :: cs =>
      if !prevWord && isAsciiLetter c then
        let run := (c :: cs).takeWhile isBodyChar
        let rest := (c :: cs).dropWhile isBodyChar
        match bestBreak (minBody + 1) run rest with
        | some k =>
            run.take k ::
              findWordsFuel minBody fuel (isWordCharPy ((run.take k).getLastD ' '))
                (run.drop k ++ rest)
        | none => findWordsFuel minBody fuel (isWordCharPy c) cs
      else findWordsFuel minBody fuel (isWordCharPy c) cs

/-- `WORDS_RE.findall(t)`; `minBody = 2` for most scripts, `1` for
`fix_arabic_js_strings.py`. -/
def wordsOf (minBody : Nat) (l : List Char) : List (List Char) :=
  findWordsFuel minBody (l.length + 1) false l

/-- `w.lower()` (ASCII). -/
def lowerW (w : List Char) : List Char := w.map Char.toLower

/-- Python substring containment `pat in s`. -/
def isSubstrOf (pat : List Char) : List Char → Bool
  | [] => pat.isEmpty
  | c :: cs => pat.isPrefixOf (c :: cs) || isSubstrOf pat cs

/-! ## Word lists of the classifiers -/

/-- `STOP_WORDS` of `batch_translate_visible_nodes.py`. -/
def STOP_WORDS_BVN : List (List Char) :=
  ["the", "a", "an", "is", "are", "was", "were", "be", "to", "of", "in", "on",
   "at", "by", "and", "or", "not", "for", "as", "with", "from", "this", "that",
   "these", "those", "you", "your", "we", "our", "course", "module", "review",
   "analysis", "evidence", "method", "methods", "question", "answer",
   "results", "study", "studies", "data", "tool", "dashboard", "library",
   "certificate", "complete", "completed"].map String.toList

/-- `STOP_WORDS` of `complete_existing_course_translations.py`. -/
def STOP_WORDS_CE : List (List Char) :=
  ["the", "a", "an", "is", "are", "was", "were", "be", "to", "of", "in", "on",
   "at", "by", "and", "or", "not", "for", "as", "with", "from", "into",
   "about", "over", "under", "this", "that", "these", "those", "you", "your",
   "we", "our", "course", "module", "review", "analysis", "evidence",
   "method", "methods", "story", "question", "answer", "results", "study",
   "studies", "data", "tool", "tools", "dashboard", "library", "certificate",
   "complete", "completed", "download"].map String.toList

/-- `CORE_ENGLISH_WORDS` of `complete_existing_course_translations.py`. -/
def CORE_ENGLISH_WORDS : List (List Char) :=
  ["the", "is", "are", "were", "to", "of", "and", "or", "not", "for", "with",
   "from", "into", "about", "over", "under", "this", "that", "these", "those",
   "you", "your", "we", "our"].map String.toList

/-- `CORE_ENGLISH` of `fix_arabic_js_strings.py`. -/
def CORE_ENGLISH_FX : List (List Char) :=
  ["the", "is", "are", "were", "was", "to", "of", "and", "or", "not", "for",
   "with", "from", "into", "about", "over", "under", "this", "that", "these",
   "those", "you", "your", "we", "our", "has", "have", "had", "been", "will",
   "would", "can", "could", "should", "may", "might", "must", "do", "does",
   "did", "but", "than", "then", "when", "where", "which", "who", "how",
   "what", "why", "all", "each", "every", "both", "few", "more", "most",
   "some", "any", "no", "other", "only", "also", "just", "because", "if",
   "while", "after", "before", "during", "between", "through", "against",
   "its", "their", "his", "her", "they", "them", "she", "he", "it",
   "by", "on", "at", "in", "an", "a"].map String.toList

/-- `ui_terms` of `is_translatable_js_string` in `fix_arabic_js_strings.py`. -/
def UI_TERMS_FX : List (List Char) :=
  ["correct", "incorrect", "yes", "no", "now", "next", "previous",
   "continue", "start", "finish", "complete", "download", "print",
   "certificate", "completion", "progress", "review", "answer",
   "question", "quiz", "score", "submit", "reset", "close",
   "reveal", "predict", "treatment", "control", "effect",
   "benefit", "harm", "favors", "standard", "error"].map String.toList

/-- `skip_patterns` of `is_translatable_js_string` in
`fix_arabic_js_strings.py`. -/
def SKIP_PATTERNS_FX : List (List Char) :=
  ["http://", "https://", "mailto:", "data:", "blob:",
   "querySelector", "getElementById", "classList", "addEventListener",
   "localStorage", "sessionStorage", "window.", "document.",
   "function(", "function (", "=>", "return ", "var ", "let ", "const ",
   ".js", ".css", ".html", ".png", ".jpg", ".svg", ".pdf",
   "rgb(", "rgba(", "hsl(", "#", "px;", "rem;",
   "evidence_reversal", "synthesis_course", "course_progress"].map String.toList

/-! ## The text classifiers -/

/-- `is_english_like` of `batch_translate_visible_nodes.py`.  The float test
`ascii_letters / letters < 0.90` is modelled by the exact comparison
`10 * ascii < 9 * letters`. -/
def is_english_like_bvn (text : List Char) (minWords : Nat) : Bool :=
  let t := normalizeCE text
  if t.length < 10 then false
  else
    let words := (wordsOf 2 t).map lowerW
    if words.length < minWords then false
    else
      let letters := t.countP isAlphaPy
      let asciiLetters := t.countP isAsciiLetter
      if letters = 0 then false
      else if asciiLetters * 10 < letters * 9 then false
      else decide (2 ≤ words.countP (fun w => STOP_WORDS_BVN.contains w))

/-- `english_score(text) >= 0.22` of `complete_existing_course_translations.py`,
with the ratio compared exactly. -/
def english_score_ge22 (t : List Char) : Bool :=
  let words := (wordsOf 2 t).map lowerW
  if words.isEmpty then false
  else
    decide (22 * max words.length 1 ≤
      100 * words.countP (fun w => STOP_WORDS_CE.contains w))

/-- `is_english_like` of `complete_existing_course_translations.py`. -/
def is_english_like_ce (text : List Char) (minWords : Nat) : Bool :=
  let t := normalizeCE text
  if t.length < 8 then false
  else
    let words := (wordsOf 2 t).map lowerW
    if words.length < minWords then false
    else
      let letters := t.countP isAlphaPy
      let asciiLetters := t.countP isAsciiLetter
      if letters = 0 then false
      else if asciiLetters * 100 < letters * 85 then false
      else
        let coreHits := words.countP (fun w => CORE_ENGLISH_WORDS.contains w)
        let hitCount := words.countP (fun w => STOP_WORDS_CE.contains w)
        if words.length ≤ 4 then decide (1 ≤ coreHits)
        else decide (2 ≤ hitCount) || english_score_ge22 t

/-- `is_english_like` of `complete_arabic_translations.py`: any predominantly
ASCII text without Arabic characters is accepted, even a single code-like
word. -/
def is_english_like_ar (text : List Char) : Bool :=
  let t := normalizeAr text
  if t.length < 5 then false
  else if (["http://", "https://", "/*", "//", "<!--"].map String.toList).any
      (fun p => p.isPrefixOf t) then false
  else if isSubstrOf "<-".toList t then false
  else if t.any (fun c => c = Char.ofNat 0x2192 || c = Char.ofNat 0x2190 ||
      c = Char.ofNat 0x2191 || c = Char.ofNat 0x2193) then false
  else
    let words := (wordsOf 2 t).map lowerW
    if words.length < 1 then false
    else
      let letters := t.countP isAlphaPy
      let asciiLetters := t.countP isAsciiLetter
      if letters = 0 then false
      else if t.any isArabicCharCA then false
      else if asciiLetters * 4 < letters * 3 then false
      else true

/-- A lowercase ASCII letter. -/
def isLowerAscii (c : Char) : Bool := decide ('a' ≤ c) && decide (c ≤ 'z')

/-- One segment of the element-id regex `[a-z][a-zA-Z0-9]*`. -/
def idSeg : List Char → Bool
  | [] => false
  | c :: rest => isLowerAscii c && rest.all (fun x => isAsciiLetter x || x.isDigit)

/-- `str.split(sep)` for a single-character separator (keeps empty pieces). -/
def splitOnChar (sep : Char) : List Char → List (List Char)
  | [] => [[]]
  | c :: cs =>
      if c = sep then [] :: splitOnChar sep cs
      else
        match splitOnChar sep cs with
        | [] => [[c]]
        | h :: t2 => (c :: h) :: t2

/-- Full match of `^[a-z][a-zA-Z0-9]*(-[a-z][a-zA-Z0-9]*)*$`. -/
def kebabIdMatch (s : List Char) : Bool :=
  (splitOnChar '-' s).all idSeg

/-- The character class `[\d\s.,;:+\-*/=<>()%$#@!?&|^~`...]` of the
symbols-only regex in `is_translatable_js_string` (backtick, brackets and
braces written via `Char.ofNat`). -/
def symCharFX (c : Char) : Bool :=
  c.isDigit || isPySpace c ||
    ['.', ',', ';', ':', '+', '-', '*', '/', '=', '<', '>', '(', ')', '%',
     '$', '#', '@', '!', '?', '&', '|', '^', '~', Char.ofNat 96,
     Char.ofNat 91, Char.ofNat 93, Char.ofNat 123, Char.ofNat 125].contains c

/-- Full match of the symbols-only regex (one or more class characters). -/
def symbolsOnlyMatch (s : List Char) : Bool :=
  !s.isEmpty && s.all symCharFX

/-- Full match of `^[a-zA-Z_][a-zA-Z0-9_]*$`. -/
def identMatch : List Char → Bool
  | [] => false
  | c :: rest =>
      (isAsciiLetter c || c = '_') &&
        rest.all (fun x => isAsciiLetter x || x.isDigit || x = '_')

/-- `str.split()` with no argument: split on whitespace runs, dropping empty
pieces. -/
def pySplitFuel : Nat → List Char → List (List Char)
  | 0, _ => []
  | fuel + 1, l =>
      let l2 := l.dropWhile isPySpace
      match l2 with
      | [] => []
      | _ :: _ =>
          l2.takeWhile (fun c => !isPySpace c) ::
            pySplitFuel fuel (l2.dropWhile (fun c => !isPySpace c))

def pySplit (l : List Char) : List (List Char) := pySplitFuel (l.length + 1) l

/-- The CSS unit alternation `(px|rem|em|%|vh|vw|s|ms)`. -/
def cssUnitList : List (List Char) :=
  ["px", "rem", "em", "%", "vh", "vw", "s", "ms"].map String.toList

/-- Full match of `^\d+(\.\d+)?(px|rem|em|%|vh|vw|s|ms)$`. -/
def cssValueMatch (s : List Char) : Bool :=
  let d1 := s.takeWhile Char.isDigit
  let r1 := s.dropWhile Char.isDigit
  if d1.isEmpty then false
  else
    match r1 with
    | [] => false
    | c :: rest =>
        if c = '.' then
          let d2 := rest.takeWhile Char.isDigit
          if d2.isEmpty then false
          else cssUnitList.contains (rest.dropWhile Char.isDigit)
        else cssUnitList.contains r1

/-- `is_translatable_js_string` of `fix_arabic_js_strings.py`. -/
def is_translatable_js_string (text : List Char) : Bool :=
  let s := normalizeAr text
  if s.length < 3 then false
  else if s.any isArabicCharFX then false
  else if SKIP_PATTERNS_FX.any (fun p => isSubstrOf p s) then false
  else if cssValueMatch s then false
  else if kebabIdMatch s && s.length < 30 then false
  else if symbolsOnlyMatch s then false
  else if (pySplit s).length = 1 && identMatch s then false
  else
    let alphaWords := wordsOf 1 s
    if alphaWords.isEmpty then false
    else if alphaWords.length ≤ 2 then
      let coreHits := alphaWords.countP (fun w => CORE_ENGLISH_FX.contains (lowerW w))
      if coreHits = 0 then
        alphaWords.any (fun w => UI_TERMS_FX.contains (lowerW w))
      else true
    else true

/-! ## The phrase batcher

All five scripts build batches with the same nested `while` loops
(`batch_translate` / `batch_translate_texts`):

```
i = 0
while i < len(uniq):
    chunk = []; total = 0
    while i < len(uniq):
        nxt = uniq[i]
        add_len = len(nxt) + (len(sep) if chunk else 0)
        if chunk and (len(chunk) >= MAX_ITEMS or total + add_len > MAX_LEN):
            break
        chunk.append(nxt); total += add_len; i += 1
```

`fillChunk` is the inner loop; `makeBatchesW` is the outer loop, fuelled by the
number of remaining phrases (each outer iteration consumes at least one phrase,
so `l.length` fuel suffices — this is proved below). -/

def fillChunk (m L s : Nat) : List (List Char) → List (List Char) → Nat →
    List (List Char) × List (List Char) × Nat
  | [], chunk, total => (chunk, [], total)
  | nxt :: rest, chunk, total =>
      let addLen := nxt.length + (if chunk.isEmpty then 0 else s)
      if !chunk.isEmpty && (decide (m ≤ chunk.length) || decide (L < total + addLen))
      then (chunk, nxt :: rest, total)
      else fillChunk m L s rest (chunk ++ [nxt]) (total + addLen)

def makeBatchesW (m L s : Nat) : Nat → List (List Char) → List (List (List Char))
  | 0, _ => []
  | _ + 1, [] => []
  | fuel + 1, nxt :: rest =>
      let r := fillChunk m L s (nxt :: rest) [] 0
      r.1 :: makeBatchesW m L s fuel r.2.1

/-- The batcher: partition the (already deduplicated) phrase list into chunks. -/
def makeBatches (m L s : Nat) (l : List (List Char)) : List (List (List Char)) :=
  makeBatchesW m L s l.length l

/-- Length of `sep.join(chunk)`: phrase lengths plus one delimiter between
consecutive phrases. -/
def joinedLen (s : Nat) (b : List (List Char)) : Nat :=
  (b.map List.length).sum + s * (b.length - 1)

/-! ## Translation cache and client of `complete_existing_course_translations.py`

The cache is a Python dict keyed by `(lang, normalized_text)`; it is modelled
as an association list with the most recent write first (`lookupC` returns the
first hit, so prepending models `dict.__setitem__`).  The network is an oracle
`lang → text → attempt → Option response`; `none` models a request/decoding
exception, `some raw` a decoded response whose translated segments join to
`raw` (the code then strips it). -/

abbrev TransKey := List Char × List Char

abbrev Cache := List (TransKey × List Char)

def lookupC (cache : Cache) (k : TransKey) : Option (List Char) :=
  (cache.find? (fun e => decide (e.1 = k))).map (fun e => e.2)

def insertC (cache : Cache) (k : TransKey) (v : List Char) : Cache :=
  (k, v) :: cache

abbrev Oracle := List Char → List Char → Nat → Option (List Char)

/-- The sentinel of `batch_translate_texts`. -/
def sepCE : List Char := "<<<SYNC_SEP_A12F>>>".toList

structure TgResult where
  res : Option (List Char)
  cache : Cache
  sleeps : List Nat
deriving DecidableEq

/-- The `for attempt in range(3)` retry loop of `translate_google`
(`complete_existing_course_translations.py`).  On an exception the code sleeps
`0.25 * (attempt + 1)` seconds (recorded here in hundredths of a second) and
retries; an empty translation retries without sleeping; after the attempts are
exhausted it raises (`res = none`). -/
def tgTry (O : Oracle) (lang t : List Char) (cache : Cache) : Nat → Nat → TgResult
  | _, 0 => ⟨none, cache, []⟩
  | i, n + 1 =>
      match O lang t i with
      | some raw =>
          let tr := stripWS raw
          if tr.isEmpty then tgTry O lang t cache (i + 1) n
          else ⟨some tr, insertC cache (lang, t) tr, []⟩
      | none =>
          let r := tgTry O lang t cache (i + 1) n
          ⟨r.res, r.cache, (25 * (i + 1)) :: r.sleeps⟩

/-- `translate_google` of `complete_existing_course_translations.py`:
normalize, return empty input unchanged, consult the cache before any network
call, otherwise run the retry loop (3 attempts, caching on success). -/
def translate_google_ce (O : Oracle) (lang text : List Char) (cache : Cache) : TgResult :=
  let t := normalizeCE text
  if t.isEmpty then ⟨some t, cache, []⟩
  else
    match lookupC cache (lang, t) with
    | some v => ⟨some v, cache, []⟩
    | none => tgTry O lang t cache 0 3

/-- The dedup/filter prologue of `batch_translate_texts`: normalize each text,
drop empties, texts already cached for this language, and duplicates. -/
def filterUniqAux (lang : List Char) (cache : Cache) (seen : List (List Char)) :
    List (List Char) → List (List Char)
  | [] => []
  | t :: rest =>
      let n := normalizeCE t
      if n.isEmpty then filterUniqAux lang cache seen rest
      else if (lookupC cache (lang, n)).isSome then filterUniqAux lang cache seen rest
      else if n ∈ seen then filterUniqAux lang cache seen rest
      else n :: filterUniqAux lang cache (n :: seen) rest

def filterUniq (lang : List Char) (cache : Cache) (texts : List (List Char)) :
    List (List Char) :=
  filterUniqAux lang cache [] texts

/-- `sep.join(chunk)`. -/
def joinSep (sep : List Char) : List (List Char) → List Char
  | [] => []
  | [x] => x
  | x :: y :: t => x ++ sep ++ joinSep sep (y :: t)

/-- `translated.split(sep)` for a nonempty separator, scanning left to right
without overlap (fuelled; one character or one separator is consumed per
step). -/
def splitAux (sep : List Char) : Nat → List Char → List Char → List (List Char)
  | 0, acc, l => [acc.reverse ++ l]
  | fuel + 1, acc, l =>
      if sep.isPrefixOf l then acc.reverse :: splitAux sep fuel [] (l.drop sep.length)
      else
        match l with
        | [] => [acc.reverse]
        | c :: cs => splitAux sep fuel (c :: acc) cs

def splitOnSub (sep l : List Char) : List (List Char) :=
  splitAux sep (l.length + 1) [] l

/-- The success path of a batch: `for src, tr in zip(chunk, parts):
cache[(lang, src)] = tr.strip() or src`. -/
def zipWrite (lang : List Char) : List (List Char) → List (List Char) → Cache → Cache
  | [], _, c => c
  | _ :: _, [], c => c
  | src :: ss, p :: ps, c =>
      let out := stripWS p
      zipWrite lang ss ps (insertC c (lang, src) (if out.isEmpty then src else out))

/-- The per-phrase fallback of a batch: translate each phrase individually,
caching the original on total failure. -/
def fallbackChunk (O : Oracle) (lang : List Char) : List (List Char) → Cache → Cache
  | [], c => c
  | src :: ss, c =>
      let r := translate_google_ce O lang src c
      match r.res with
      | some _ => fallbackChunk O lang ss r.cache
      | none => fallbackChunk O lang ss (insertC r.cache (lang, src) src)

/-- Processing of one chunk in `batch_translate_texts`: translate the joined
request; on success split on the sentinel and, when the part count matches,
write each pair; otherwise (count mismatch or raised request) abandon the
batch and fall back to per-phrase translation. -/
def processChunk (O : Oracle) (lang : List Char) (chunk : List (List Char))
    (c : Cache) : Cache :=
  let r := translate_google_ce O lang (joinSep sepCE chunk) c
  match r.res with
  | some translated =>
      let parts := splitOnSub sepCE translated
      if parts.length = chunk.length then zipWrite lang chunk parts r.cache
      else fallbackChunk O lang chunk r.cache
  | none => fallbackChunk O lang chunk r.cache

/-- The outer chunk loop of `batch_translate_texts`. -/
def runChunks (O : Oracle) (lang : List Char) :
    List (List (List Char)) → Cache → Cache
  | [], c => c
  | k :: ks, c => runChunks O lang ks (processChunk O lang k c)

/-- `batch_translate_texts` of `complete_existing_course_translations.py`
(constants 40 items / 3900 characters; chunk boundaries depend only on the
filtered unique list, so the chunking is computed up front). -/
def batch_translate_texts (O : Oracle) (lang : List Char) (texts : List (List Char))
    (cache : Cache) : Cache :=
  runChunks O lang (makeBatches 40 3900 sepCE.length (filterUniq lang cache texts)) cache

/-! ## The result-mapping variant of `batch_translate_visible_nodes.py`

Its `translate_google` performs a single request without retry or cache; the
batch function returns an `out` dict from source phrase to translation. -/

abbrev OracleVN := List Char → List Char → Option (List Char)

abbrev OutMap := List (List Char × List Char)

def lookupO (out : OutMap) (k : List Char) : Option (List Char) :=
  (out.find? (fun e => decide (e.1 = k))).map (fun e => e.2)

def insertO (out : OutMap) (k v : List Char) : OutMap :=
  (k, v) :: out

/-- The sentinel of `batch_translate` in `batch_translate_visible_nodes.py`. -/
def sepVN : List Char := "<<<SEP_TRANSLATE_9F31>>>".toList

/-- `translate_google` of `batch_translate_visible_nodes.py`: single request,
result stripped, raises on failure. -/
def translate_google_vn (O : OracleVN) (lang text : List Char) : Option (List Char) :=
  (O lang text).map stripWS

/-- The dedup prologue of `batch_translate` (exact strings, first occurrence
kept). -/
def dedupFirstAux (seen : List (List Char)) : List (List Char) → List (List Char)
  | [] => []
  | t :: rest =>
      if t ∈ seen then dedupFirstAux seen rest
      else t :: dedupFirstAux (t :: seen) rest

def dedupFirst (l : List (List Char)) : List (List Char) := dedupFirstAux [] l

def fallbackVN (O : OracleVN) (lang : List Char) :
    List (List Char) → OutMap → OutMap
  | [], out => out
  | src :: ss, out =>
      match translate_google_vn O lang src with
      | some t => fallbackVN O lang ss (insertO out src t)
      | none => fallbackVN O lang ss (insertO out src src)

def zipWriteVN : List (List Char) → List (List Char) → OutMap → OutMap
  | [], _, out => out
  | _ :: _, [], out => out
  | src :: ss, p :: ps, out => zipWriteVN ss ps (insertO out src (stripWS p))

def processChunkVN (O : OracleVN) (lang : List Char) (chunk : List (List Char))
    (out : OutMap) : OutMap :=
  match translate_google_vn O lang (joinSep sepVN chunk) with
  | some translated =>
      let parts := splitOnSub sepVN translated
      if parts.length = chunk.length then zipWriteVN chunk parts out
      else fallbackVN O lang chunk out
  | none => fallbackVN O lang chunk out

def runChunksVN (O : OracleVN) (lang : List Char) :
    List (List (List Char)) → OutMap → OutMap
  | [], out => out
  | k :: ks, out => runChunksVN O lang ks (processChunkVN O lang k out)

/-- `batch_translate` of `batch_translate_visible_nodes.py` (constants
35 items / 3800 characters). -/
def batch_translate_vn (O : OracleVN) (lang : List Char)
    (texts : List (List Char)) : OutMap :=
  runChunksVN O lang (makeBatches 35 3800 sepVN.length (dedupFirst texts)) []

/-! ## The Arabic phrase-level client of `complete_arabic_translations.py` -/

abbrev CacheA := List (List Char × List Char)

abbrev OracleA := List Char → Nat → Option (List Char)

structure TgArResult where
  res : List Char
  cache : CacheA
  sleeps : List Nat
deriving DecidableEq

def lookupA (cache : CacheA) (k : List Char) : Option (List Char) :=
  (cache.find? (fun e => decide (e.1 = k))).map (fun e => e.2)

/-- Retry loop of `translate_google` in `complete_arabic_translations.py`:
3 attempts with `0.3 * (attempt + 1)` backoff (hundredths of a second); on the
last failed attempt it warns, caches the ORIGINAL text, and returns it; if the
loop falls through (last attempt succeeded with an empty translation) the
original is returned uncached. -/
def tgTryAr (O : OracleA) (t : List Char) (cache : CacheA) : Nat → Nat → TgArResult
  | _, 0 => ⟨t, cache, []⟩
  | i, n + 1 =>
      match O t i with
      | some raw =>
          let tr := stripWS raw
          if tr.isEmpty then tgTryAr O t cache (i + 1) n
          else ⟨tr, (t, tr) :: cache, []⟩
      | none =>
          if i = 2 then ⟨t, (t, t) :: cache, []⟩
          else
            let r := tgTryAr O t cache (i + 1) n
            ⟨r.res, r.cache, (30 * (i + 1)) :: r.sleeps⟩

/-- `translate_google` of `complete_arabic_translations.py`. -/
def translate_google_ar (O : OracleA) (text : List Char) (cache : CacheA) : TgArResult :=
  let t := normalizeAr text
  if t.isEmpty then ⟨t, cache, []⟩
  else
    match lookupA cache t with
    | some v => ⟨v, cache, []⟩
    | none => tgTryAr O t cache 0 3

/-! ## The node-replacement apply loop of `process_file`
(`batch_translate_visible_nodes.py`; identical guard in `process_pair` of
`sync_translate_from_source.py` and `translate_html_text_nodes` of
`complete_existing_course_translations.py`) -/

/-- One candidate node: look up the normalized payload in the result mapping
(defaulting to itself), rebuild `leading + tr + trailing`, and replace the
node — counting one change — only when the rebuilt string differs from the
current node text. -/
def applyNode (mapping : OutMap) (raw : List Char) : List Char × Nat :=
  let stripped := normalizeCE raw
  let tr := (lookupO mapping stripped).getD stripped
  let new := replacementFor raw tr
  if new ≠ raw then (new, 1) else (raw, 0)

def applyTargets (mapping : OutMap) : List (List Char) → List (List Char) × Nat
  | [] => ([], 0)
  | raw :: rest =>
      let r := applyNode mapping raw
      let rs := applyTargets mapping rest
      (r.1 :: rs.1, r.2 + rs.2)

/-- The write guard `if changes and not dry_run:` of `process_file`. -/
def shouldWriteFile (changes : Nat) (dryRun : Bool) : Bool :=
  !decide (changes = 0) && !dryRun

/-- Key-set monotonicity between two caches. -/
def cacheLe (c c' : Cache) : Prop :=
  ∀ k, (lookupC c k).isSome → (lookupC c' k).isSome

/-- Entry preservation between two caches: present keys keep their values. -/
def cacheExt (c c' : Cache) : Prop :=
  ∀ k v, lookupC c k = some v → lookupC c' k = some v

/-! ## Characterization of normalized strings

`wsOk l` captures exactly the strings fixed by `normalizeCE`: all whitespace
characters are plain spaces, no two adjacent, none at either end, and no smart
quotes.  This yields idempotence of `normalize` and stability of the
sentinel-joined batch request. -/

def wsOk (l : List Char) : Prop :=
  (∀ c ∈ l, isPySpace c = true → c = ' ') ∧
  List.Chain' (fun a b => (!(isPySpace a && isPySpace b)) = true) l ∧
  l.head?.all (fun x => !isPySpace x) = true ∧
  l.reverse.head?.all (fun x => !isPySpace x) = true ∧
  l.map foldQuote = l

/-! ## A sentinel collision: the joined request key of one chunk reused as a
later phrase. 40 one-character phrases fill the first chunk (item limit 40),
so the 41st input, equal to the joined request of that chunk, lands in the
second chunk and its cache entry is overwritten by the zip-write loop. -/

def xs40C6 : List (List Char) :=
  "abcdefghijklmnopqrstuvwxyzABCDEFGHIJKLMN".toList.map (fun c => [c])

def cBigC6 : List Char := joinSep sepCE xs40C6

def dC6 : List Char := ['O', 'O']

def textsC6 : List (List Char) := xs40C6 ++ [cBigC6, dC6]

def langC6 : List Char := ['f', 'r']

def oracleC6 : Oracle := fun _ text _ =>
  if text = cBigC6 then some cBigC6
  else if text = cBigC6 ++ sepCE ++ dC6 then some (['P', 'P'] ++ sepCE ++ ['Q', 'Q'])
  else none

theorem leadingOf_eq_takeWhile (raw : List Char) :
    leadingOf raw = raw.takeWhile isPySpace := by
  have hsplit : raw.takeWhile isPySpace ++ raw.dropWhile isPySpace = raw :=
    List.takeWhile_append_dropWhile _ _
  have hlen : raw.length - (lstripWS raw).length = (raw.takeWhile isPySpace).length := by
    have h2 : raw.length =
        (raw.takeWhile isPySpace).length + (raw.dropWhile isPySpace).length := by
      conv_lhs => rw [← hsplit]
      exact List.length_append _ _
    unfold lstripWS
    omega
  have h3 := List.take_left (raw.takeWhile isPySpace) (raw.dropWhile isPySpace)
  rw [hsplit] at h3
  unfold leadingOf
  rw [hlen, h3]

theorem trailingOf_eq (raw : List Char) :
    trailingOf raw = (raw.reverse.takeWhile isPySpace).reverse := by
  have hsplit : raw.reverse.takeWhile isPySpace ++ raw.reverse.dropWhile isPySpace
      = raw.reverse := List.takeWhile_append_dropWhile _ _
  have hraw : (raw.reverse.dropWhile isPySpace).reverse ++
      (raw.reverse.takeWhile isPySpace).reverse = raw := by
    rw [← List.reverse_append, hsplit, List.reverse_reverse]
  have h3 := List.drop_left (raw.reverse.dropWhile isPySpace).reverse
    (raw.reverse.takeWhile isPySpace).reverse
  rw [hraw] at h3
  unfold trailingOf rstripWS
  rw [h3]

theorem takeWhile_maximal_prefix (f : Char → Bool) :
    ∀ (p l : List Char), p <+: l → (∀ c ∈ p, f c = true) →
      p.length ≤ (l.takeWhile f).length := by
  intro p
  induction p with
  | nil => intro l _ _; simp
  | cons a p' ih =>
      intro l hp ha
      obtain ⟨t, ht⟩ := hp
      subst ht
      have hfa : f a = true := ha a (by simp)
      rw [List.cons_append, List.takeWhile_cons_of_pos hfa]
      simp only [List.length_cons, Nat.succ_le_succ_iff]
      exact ih _ ⟨t, rfl⟩ (fun c hc => ha c (by simp [hc]))

/-- C3: for every text node, the replacement string built by the rewriter is exactly the
maximal whitespace prefix of the original node text, then the translated
payload, then the maximal whitespace suffix; both slices consist of whitespace
only and are maximal among whitespace-only prefixes/suffixes of the original. -/
theorem rewriter_preserves_edge_whitespace (raw tr : List Char) :
    replacementFor raw tr =
      raw.takeWhile isPySpace ++ tr ++ (raw.reverse.takeWhile isPySpace).reverse ∧
    (∀ c ∈ leadingOf raw, isPySpace c = true) ∧
    (∀ c ∈ trailingOf raw, isPySpace c = true) ∧
    (∀ p, p <+: raw → (∀ c ∈ p, isPySpace c = true) →
      p.length ≤ (leadingOf raw).length) ∧
    (∀ q, q <:+ raw → (∀ c ∈ q, isPySpace c = true) →
      q.length ≤ (trailingOf raw).length) := by
  refine ⟨?_, ?_, ?_, ?_, ?_⟩
  · rw [replacementFor, leadingOf_eq_takeWhile, trailingOf_eq]
  · intro c hc
    rw [leadingOf_eq_takeWhile] at hc
    exact List.mem_takeWhile_imp hc
  · intro c hc
    rw [trailingOf_eq] at hc
    rw [List.mem_reverse] at hc
    exact List.mem_takeWhile_imp hc
  · intro p hp ha
    rw [leadingOf_eq_takeWhile]
    exact takeWhile_maximal_prefix isPySpace p raw hp ha
  · intro q hq ha
    rw [trailingOf_eq, List.length_reverse]
    have hq' : q.reverse <+: raw.reverse := List.reverse_prefix.mpr hq
    have := takeWhile_maximal_prefix isPySpace q.reverse raw.reverse hq'
      (fun c hc => ha c (List.mem_reverse.mp hc))
    simpa using this

/-- Witness for `rewriter_preserves_edge_whitespace` at the example
scenario 4 node text of the spec. -/
theorem rewriter_preserves_edge_whitespace_check :
    replacementFor "  Hello world today  ".toList "SALUT".toList =
      ("  Hello world today  ".toList.takeWhile isPySpace) ++ "SALUT".toList ++
        ("  Hello world today  ".toList.reverse.takeWhile isPySpace).reverse ∧
    "  ".toList.length ≤ (leadingOf "  Hello world today  ".toList).length :=
  ⟨(rewriter_preserves_edge_whitespace "  Hello world today  ".toList "SALUT".toList).1,
   (rewriter_preserves_edge_whitespace "  Hello world today  ".toList "SALUT".toList).2.2.2.1
     "  ".toList (by decide) (by decide)⟩

theorem pyReplaceChar_append (old : Char) (new : List Char) (a b : List Char) :
    pyReplaceChar old new (a ++ b) = pyReplaceChar old new a ++ pyReplaceChar old new b := by
  induction a with
  | nil => rfl
  | cons x xs ih => simp [pyReplaceChar, ih]

theorem escape_js_literal_char (quote : Char) (hq : quote = squoChar ∨ quote = dquoChar) :
    ∀ text : List Char, escape_js_literal text quote = text.flatMap (escCharFor quote) := by
  intro text
  induction text with
  | nil =>
      rcases hq with h | h <;> subst h <;> rfl
  | cons c cs ih =>
      have step : ∀ q : Char, q ≠ bslChar →
          pyReplaceChar q [bslChar, q] (pyReplaceChar bslChar [bslChar, bslChar] (c :: cs))
            = escCharFor q c ++
              pyReplaceChar q [bslChar, q] (pyReplaceChar bslChar [bslChar, bslChar] cs) := by
        intro q hqb
        by_cases hcb : c = bslChar
        · subst hcb
          simp [pyReplaceChar, escCharFor, pyReplaceChar_append, Ne.symm hqb]
        · by_cases hcq : c = q
          · subst hcq
            simp [pyReplaceChar, escCharFor, hcb]
          · simp [pyReplaceChar, escCharFor, hcb, hcq]
      rcases hq with h | h <;> subst h
      · show pyReplaceChar squoChar [bslChar, squoChar]
            (pyReplaceChar bslChar [bslChar, bslChar] (c :: cs)) = _
        rw [step squoChar (by decide)]
        simp only [List.flatMap_cons]
        rw [← ih]
        rfl
      · show pyReplaceChar dquoChar [bslChar, dquoChar]
            (pyReplaceChar bslChar [bslChar, bslChar] (c :: cs)) = _
        rw [step dquoChar (by decide)]
        simp only [List.flatMap_cons]
        rw [← ih]
        rfl

/-- C4 counterexample: `escape_js_literal` does not escape newline characters.
On the input `"a\nb"` with single-quote style the function returns its input
unchanged, with the raw newline still present in the output. -/
theorem escape_js_literal_newline_unescaped :
    escape_js_literal ['a', nlChar, 'b'] squoChar = ['a', nlChar, 'b'] ∧
    nlChar ∈ escape_js_literal ['a', nlChar, 'b'] squoChar ∧
    escape_js ['a', nlChar, 'b'] squoChar = ['a', bslChar, 'n', 'b'] := by
  refine ⟨by decide, by decide, by decide⟩

/-- C4 (amended): for either quote style, `escape_js_literal` escapes exactly
backslashes and the quote character matching the delimiter of the literal; every
other character — including newlines — is passed through unchanged. -/
theorem escape_js_literal_spec (text : List Char) (quote : Char)
    (hq : quote = squoChar ∨ quote = dquoChar) :
    escape_js_literal text quote = text.flatMap (escCharFor quote) ∧
    (∀ c ∈ text, c ≠ bslChar → c ≠ quote → escCharFor quote c = [c]) ∧
    escCharFor quote bslChar = [bslChar, bslChar] ∧
    escCharFor quote quote = (if quote = bslChar then [bslChar, bslChar] else [bslChar, quote]) := by
  refine ⟨escape_js_literal_char quote hq text, ?_, ?_, ?_⟩
  · intro c _ hcb hcq
    simp [escCharFor, hcb, hcq]
  · simp [escCharFor]
  · rcases hq with h | h <;> subst h <;> decide

/-- Witness for `escape_js_literal_spec` on the example scenario 5 literal
of the spec. -/
theorem escape_js_literal_spec_check :
    escape_js_literal ['I', 't', squoChar, 's', ' ', 'd', 'o', 'n', 'e'] squoChar =
      (['I', 't', squoChar, 's', ' ', 'd', 'o', 'n', 'e'].flatMap (escCharFor squoChar)) ∧
    escape_js_literal ['I', 't', squoChar, 's', ' ', 'd', 'o', 'n', 'e'] squoChar =
      ['I', 't', bslChar, squoChar, 's', ' ', 'd', 'o', 'n', 'e'] :=
  ⟨(escape_js_literal_spec ['I', 't', squoChar, 's', ' ', 'd', 'o', 'n', 'e'] squoChar
      (Or.inl rfl)).1, by decide⟩

/-- C5 counterexample: the claim states that every classifier of the pipeline
rejects the phrase `nextSlide`, but `is_english_like` of
`complete_arabic_translations.py` accepts it (its strategy accepts any
predominantly-ASCII text without Arabic characters, even a lone camelCase
identifier). -/
theorem nextSlide_accepted_by_arabic_classifier :
    is_english_like_ar "nextSlide".toList = true := by decide

/-- C5 (amended): `nextSlide` is classified NOT translatable by
`is_english_like` of `batch_translate_visible_nodes.py` and of
`complete_existing_course_translations.py` and by
`is_translatable_js_string` of `fix_arabic_js_strings.py`, but it IS
classified translatable by the broad `is_english_like` of
`complete_arabic_translations.py`. -/
theorem nextSlide_classification :
    is_english_like_bvn "nextSlide".toList 3 = false ∧
    is_english_like_ce "nextSlide".toList 3 = false ∧
    is_translatable_js_string "nextSlide".toList = false ∧
    is_english_like_ar "nextSlide".toList = true := by
  refine ⟨by decide, by decide, by decide, by decide⟩

/-- C9: each embedded text classifier is a deterministic function of its
string input: equal arguments yield equal boolean results.  (Side-effect
freedom holds by construction of the embedding: the Python originals read only
the immutable module-level word lists, which are embedded here as constants.) -/
theorem classifiers_deterministic (s t : List Char) (minWords : Nat) (h : s = t) :
    is_english_like_bvn s minWords = is_english_like_bvn t minWords ∧
    is_english_like_ce s minWords = is_english_like_ce t minWords ∧
    is_english_like_ar s = is_english_like_ar t ∧
    is_translatable_js_string s = is_translatable_js_string t := by
  subst h
  exact ⟨rfl, rfl, rfl, rfl⟩

/-- Witness for `classifiers_deterministic` at a concrete phrase. -/
theorem classifiers_deterministic_check :
    is_english_like_bvn "Welcome to the course".toList 3 =
      is_english_like_bvn "Welcome to the course".toList 3 ∧
    is_english_like_ce "Welcome to the course".toList 3 =
      is_english_like_ce "Welcome to the course".toList 3 ∧
    is_english_like_ar "Welcome to the course".toList =
      is_english_like_ar "Welcome to the course".toList ∧
    is_translatable_js_string "Welcome to the course".toList =
      is_translatable_js_string "Welcome to the course".toList :=
  classifiers_deterministic "Welcome to the course".toList
    "Welcome to the course".toList 3 rfl

/-- One step of the inner loop, as an equation. -/
theorem fillChunk_cons (m L s : Nat) (nxt : List Char) (rest chunk : List (List Char))
    (total : Nat) :
    fillChunk m L s (nxt :: rest) chunk total =
      if (!chunk.isEmpty && (decide (m ≤ chunk.length) ||
          decide (L < total + (nxt.length + (if chunk.isEmpty then 0 else s))))) = true
      then (chunk, nxt :: rest, total)
      else fillChunk m L s rest (chunk ++ [nxt])
        (total + (nxt.length + (if chunk.isEmpty then 0 else s))) := rfl

theorem fillChunk_decomp (m L s : Nat) :
    ∀ (rem chunk : List (List Char)) (total : Nat),
      ∃ taken, (fillChunk m L s rem chunk total).1 = chunk ++ taken ∧
        rem = taken ++ (fillChunk m L s rem chunk total).2.1 := by
  intro rem
  induction rem with
  | nil =>
      intro chunk total
      exact ⟨[], by simp [fillChunk]⟩
  | cons nxt rest ih =>
      intro chunk total
      rw [fillChunk_cons]
      by_cases hbr : (!chunk.isEmpty && (decide (m ≤ chunk.length) ||
          decide (L < total + (nxt.length + (if chunk.isEmpty then 0 else s))))) = true
      · rw [if_pos hbr]
        exact ⟨[], by simp, by simp⟩
      · rw [if_neg hbr]
        obtain ⟨taken, h1, h2⟩ :=
          ih (chunk ++ [nxt]) (total + (nxt.length + (if chunk.isEmpty then 0 else s)))
        refine ⟨nxt :: taken, ?_, ?_⟩
        · rw [h1]; simp
        · rw [List.cons_append, ← h2]

/-- The inner loop always takes the first phrase (the break guard requires a
nonempty chunk), so each outer iteration consumes at least one phrase. -/
theorem fillChunk_consumes (m L s : Nat) (nxt : List Char) (rest : List (List Char)) :
    (fillChunk m L s (nxt :: rest) [] 0).1 ≠ [] ∧
    (fillChunk m L s (nxt :: rest) [] 0).2.1.length < (nxt :: rest).length := by
  have hstep : fillChunk m L s (nxt :: rest) [] 0 =
      fillChunk m L s rest [nxt] (0 + (nxt.length + 0)) := by
    rw [fillChunk_cons]; simp
  obtain ⟨taken, h1, h2⟩ := fillChunk_decomp m L s rest [nxt] (0 + (nxt.length + 0))
  constructor
  · rw [hstep, h1]; simp
  · rw [hstep]
    have hlen : rest.length = taken.length +
        (fillChunk m L s rest [nxt] (0 + (nxt.length + 0))).2.1.length := by
      conv_lhs => rw [h2]
      exact List.length_append _ _
    simp only [List.length_cons]
    omega

/-- Appending one phrase to a nonempty chunk adds its length plus one
delimiter length to the joined length. -/
theorem joinedLen_append_singleton (s : Nat) (chunk : List (List Char)) (nxt : List Char)
    (h : chunk ≠ []) :
    joinedLen s (chunk ++ [nxt]) = joinedLen s chunk + (nxt.length + s) := by
  obtain ⟨k, hk⟩ : ∃ k, chunk.length = k + 1 :=
    ⟨chunk.length - 1, by have := List.length_pos.mpr h; omega⟩
  simp only [joinedLen, List.map_append, List.sum_append, List.map_cons, List.map_nil,
    List.sum_cons, List.sum_nil, List.length_append, List.length_cons, List.length_nil, hk]
  have h1 : k + 1 + (0 + 1) - 1 = (k + 1 - 1) + 1 := by omega
  rw [h1, Nat.mul_succ]
  omega

/-- Loop invariant of the inner loop: assuming the invariant on the incoming
chunk, the returned chunk respects the item bound, and, when it holds more
than one phrase, the joined-length bound. -/
theorem fillChunk_inv (m L s : Nat) (hm : 1 ≤ m) :
    ∀ (rem chunk : List (List Char)) (total : Nat),
      total = joinedLen s chunk → chunk.length ≤ m → (2 ≤ chunk.length → total ≤ L) →
      (fillChunk m L s rem chunk total).1.length ≤ m ∧
      (2 ≤ (fillChunk m L s rem chunk total).1.length →
        joinedLen s (fillChunk m L s rem chunk total).1 ≤ L) := by
  intro rem
  induction rem with
  | nil =>
      intro chunk total h1 h2 h3
      refine ⟨by simpa [fillChunk] using h2, ?_⟩
      intro hlen
      simp only [fillChunk] at hlen ⊢
      rw [← h1]
      exact h3 hlen
  | cons nxt rest ih =>
      intro chunk total h1 h2 h3
      rw [fillChunk_cons]
      by_cases hbr : (!chunk.isEmpty && (decide (m ≤ chunk.length) ||
          decide (L < total + (nxt.length + (if chunk.isEmpty then 0 else s))))) = true
      · rw [if_pos hbr]
        exact ⟨h2, fun hlen => h1 ▸ h3 hlen⟩
      · rw [if_neg hbr]
        by_cases hemp : chunk = []
        · subst hemp
          apply ih
          · simp [joinedLen, h1]
          · simpa using hm
          · intro h; simp at h
        · have hemp' : chunk.isEmpty = false := by
            cases chunk with
            | nil => exact absurd rfl hemp
            | cons a b => rfl
          simp only [hemp', Bool.not_false, Bool.true_and, Bool.or_eq_true,
            decide_eq_true_eq] at hbr
          push_neg at hbr
          obtain ⟨hlt, hle⟩ := hbr
          have hcl : 1 ≤ chunk.length := by
            cases chunk with
            | nil => exact absurd rfl hemp
            | cons a b => simp
          apply ih
          · rw [h1]
            rw [joinedLen_append_singleton s chunk nxt hemp]
            simp [hemp']
          · simp only [List.length_append, List.length_cons, List.length_nil]
            omega
          · intro _
            simpa [hemp'] using hle

/-- The batches emitted by the fuelled outer loop: every batch is nonempty,
respects the item bound, and, when it holds at least two phrases, the
joined-length bound. -/
theorem makeBatchesW_bounds (m L s : Nat) (hm : 1 ≤ m) :
    ∀ (fuel : Nat) (l : List (List Char)), ∀ b ∈ makeBatchesW m L s fuel l,
      b ≠ [] ∧ b.length ≤ m ∧ (2 ≤ b.length → joinedLen s b ≤ L) := by
  intro fuel
  induction fuel with
  | zero => intro l b hb; simp [makeBatchesW] at hb
  | succ f ih =>
      intro l b hb
      cases l with
      | nil => simp [makeBatchesW] at hb
      | cons nxt rest =>
          simp only [makeBatchesW, List.mem_cons] at hb
          rcases hb with hb | hb
          · subst hb
            refine ⟨(fillChunk_consumes m L s nxt rest).1, ?_⟩
            have h0 : (0 : Nat) = joinedLen s ([] : List (List Char)) := by
              simp [joinedLen]
            exact fillChunk_inv m L s hm (nxt :: rest) [] 0 h0 (by simp)
              (by intro h; simp at h)
          · exact ih _ b hb

/-- With fuel at least the number of phrases, the concatenation of the
batches is the input list. -/
theorem makeBatchesW_join (m L s : Nat) :
    ∀ (fuel : Nat) (l : List (List Char)), l.length ≤ fuel →
      (makeBatchesW m L s fuel l).flatten = l := by
  intro fuel
  induction fuel with
  | zero =>
      intro l hl
      have : l = [] := List.length_eq_zero.mp (Nat.le_zero.mp hl)
      subst this; rfl
  | succ f ih =>
      intro l hl
      cases l with
      | nil => rfl
      | cons nxt rest =>
          simp only [makeBatchesW, List.flatten_cons]
          obtain ⟨taken, h1, h2⟩ := fillChunk_decomp m L s (nxt :: rest) [] 0
          have hcons := fillChunk_consumes m L s nxt rest
          have hle : (fillChunk m L s (nxt :: rest) [] 0).2.1.length ≤ f := by
            have := hcons.2
            simp only [List.length_cons] at this hl
            omega
          rw [ih _ hle]
          simp only [List.nil_append] at h1
          rw [h1, ← h2]

/-- Once the running total exceeds the length bound, a nonempty chunk is
closed immediately. -/
theorem fillChunk_stuck (m L s : Nat) :
    ∀ (rem chunk : List (List Char)) (total : Nat), chunk ≠ [] → L < total →
      fillChunk m L s rem chunk total = (chunk, rem, total) := by
  intro rem chunk total hne hlt
  cases rem with
  | nil => rfl
  | cons nxt rest =>
      rw [fillChunk_cons, if_pos]
      have hemp : chunk.isEmpty = false := by
        cases chunk with
        | nil => exact absurd rfl hne
        | cons a b => rfl
      simp [hemp]
      omega

/-- A phrase longer than the length bound can only ever sit alone in a chunk. -/
theorem fillChunk_long_mem (m L s : Nat) (x : List Char) (hx : L < x.length) :
    ∀ (rem chunk : List (List Char)) (total : Nat),
      total = joinedLen s chunk → x ∉ chunk →
      x ∈ (fillChunk m L s rem chunk total).1 →
      (fillChunk m L s rem chunk total).1 = [x] := by
  intro rem
  induction rem with
  | nil =>
      intro chunk total _ hnx hmem
      exact absurd (by simpa [fillChunk] using hmem) hnx
  | cons nxt rest ih =>
      intro chunk total htot hnx hmem
      rw [fillChunk_cons] at hmem ⊢
      by_cases hbr : (!chunk.isEmpty && (decide (m ≤ chunk.length) ||
          decide (L < total + (nxt.length + (if chunk.isEmpty then 0 else s))))) = true
      · rw [if_pos hbr] at hmem
        exact absurd hmem hnx
      · rw [if_neg hbr] at hmem ⊢
        by_cases hxe : nxt = x
        · subst hxe
          have hemp : chunk = [] := by
            by_contra hne
            have hemp' : chunk.isEmpty = false := by
              cases chunk with
              | nil => exact absurd rfl hne
              | cons a b => rfl
            apply hbr
            simp [hemp']
            omega
          subst hemp
          have ht0 : total = 0 := by simpa [joinedLen] using htot
          subst ht0
          have hss := fillChunk_stuck m L s rest [nxt]
            (0 + (nxt.length + (if ([] : List (List Char)).isEmpty then 0 else s)))
            (by simp) (by simpa using hx)
          simp only [List.nil_append]
          rw [hss]
        · apply ih (chunk ++ [nxt]) _ _ _ hmem
          · by_cases hemp : chunk = []
            · subst hemp
              simp [joinedLen, htot]
            · have hemp' : chunk.isEmpty = false := by
                cases chunk with
                | nil => exact absurd rfl hemp
                | cons a b => rfl
              rw [htot, joinedLen_append_singleton s chunk nxt hemp]
              simp [hemp']
          · intro hc
            rcases List.mem_append.mp hc with hc | hc
            · exact hnx hc
            · simp at hc
              exact hxe hc.symm

/-- A phrase longer than the length bound is emitted as a singleton batch. -/
theorem makeBatchesW_long (m L s : Nat) (x : List Char) (hx : L < x.length) :
    ∀ (fuel : Nat) (l : List (List Char)), l.length ≤ fuel → x ∈ l →
      [x] ∈ makeBatchesW m L s fuel l := by
  intro fuel
  induction fuel with
  | zero =>
      intro l hl hmem
      have : l = [] := List.length_eq_zero.mp (Nat.le_zero.mp hl)
      subst this
      simp at hmem
  | succ f ih =>
      intro l hl hmem
      cases l with
      | nil => simp at hmem
      | cons nxt rest =>
          obtain ⟨taken, h1, h2⟩ := fillChunk_decomp m L s (nxt :: rest) [] 0
          simp only [List.nil_append] at h1
          have hsplit : x ∈ (fillChunk m L s (nxt :: rest) [] 0).1 ∨
              x ∈ (fillChunk m L s (nxt :: rest) [] 0).2.1 := by
            rw [h1]
            rw [h2] at hmem
            exact List.mem_append.mp hmem
          simp only [makeBatchesW, List.mem_cons]
          rcases hsplit with hc | hc
          · left
            exact (fillChunk_long_mem m L s x hx (nxt :: rest) [] 0
              (by simp [joinedLen]) (by simp) hc).symm
          · right
            have hlen := (fillChunk_consumes m L s nxt rest).2
            exact ih _ (by simp only [List.length_cons] at hlen hl; omega) hc

/-- Fuel irrelevance: any fuel at least the number of phrases produces the
same batches as the canonical fuel `l.length` — the outer loop needs at most
one iteration per phrase. -/
theorem makeBatchesW_fuel_eq (m L s : Nat) :
    ∀ (fuel : Nat) (l : List (List Char)), l.length ≤ fuel →
      makeBatchesW m L s fuel l = makeBatches m L s l := by
  intro fuel
  induction fuel using Nat.strong_induction_on with
  | _ fuel ih =>
      intro l hl
      match fuel, l with
      | 0, l =>
          have : l = [] := List.length_eq_zero.mp (Nat.le_zero.mp hl)
          subst this; rfl
      | f + 1, [] => rfl
      | f + 1, nxt :: rest =>
          have hlen := (fillChunk_consumes m L s nxt rest).2
          show _ :: makeBatchesW m L s f (fillChunk m L s (nxt :: rest) [] 0).2.1 = _
          have hr1 : makeBatchesW m L s f (fillChunk m L s (nxt :: rest) [] 0).2.1 =
              makeBatches m L s (fillChunk m L s (nxt :: rest) [] 0).2.1 := by
            apply ih f (Nat.lt_succ_self f)
            simp only [List.length_cons] at hlen hl
            omega
          have hr2 : makeBatchesW m L s rest.length (fillChunk m L s (nxt :: rest) [] 0).2.1 =
              makeBatches m L s (fillChunk m L s (nxt :: rest) [] 0).2.1 := by
            apply ih rest.length
            · simp only [List.length_cons] at hl
              omega
            · simp only [List.length_cons] at hlen
              omega
          rw [hr1]
          show _ = _ :: makeBatchesW m L s rest.length (fillChunk m L s (nxt :: rest) [] 0).2.1
          rw [hr2]

/-- The number of batches never exceeds the number of phrases. -/
theorem makeBatchesW_count (m L s : Nat) :
    ∀ (fuel : Nat) (l : List (List Char)),
      (makeBatchesW m L s fuel l).length ≤ l.length := by
  intro fuel
  induction fuel with
  | zero => intro l; simp [makeBatchesW]
  | succ f ih =>
      intro l
      cases l with
      | nil => simp [makeBatchesW]
      | cons nxt rest =>
          simp only [makeBatchesW, List.length_cons]
          have h1 := ih (fillChunk m L s (nxt :: rest) [] 0).2.1
          have h2 := (fillChunk_consumes m L s nxt rest).2
          simp only [List.length_cons] at h2
          omega

theorem countP_flatten_eq_sum (p : List Char) :
    ∀ B : List (List (List Char)),
      B.flatten.countP (fun x => decide (x = p)) =
        (B.map (fun b => b.countP (fun x => decide (x = p)))).sum := by
  intro B
  induction B with
  | nil => rfl
  | cons b B' ih => simp [List.countP_append, ih]

theorem nodup_countP_eq_one (p : List Char) :
    ∀ l : List (List Char), l.Nodup → p ∈ l →
      l.countP (fun x => decide (x = p)) = 1 := by
  intro l
  induction l with
  | nil => intro _ hp; simp at hp
  | cons a t ih =>
      intro hnd hp
      rw [List.countP_cons]
      have hnd' := List.nodup_cons.mp hnd
      by_cases hap : a = p
      · have hz : t.countP (fun x => decide (x = p)) = 0 := by
          rw [List.countP_eq_zero]
          intro x hx
          simp only [decide_eq_true_eq]
          intro hxp
          exact hnd'.1 (by rw [hap, ← hxp]; exact hx)
        simp [hap, hz]
      · have hmem : p ∈ t := by
          rcases List.mem_cons.mp hp with heq | hmem
          · exact absurd heq.symm hap
          · exact hmem
        have := ih hnd'.2 hmem
        simp [hap, this]

theorem countP_eq_one_of_sum_one :
    ∀ (B : List (List (List Char))) (p : List Char),
      (B.map (fun b => b.countP (fun x => decide (x = p)))).sum = 1 →
      B.countP (fun b => decide (p ∈ b)) = 1 := by
  intro B p
  induction B with
  | nil => intro h; simp at h
  | cons b B' ih =>
      intro h
      simp only [List.map_cons, List.sum_cons] at h
      rw [List.countP_cons]
      by_cases hb : p ∈ b
      · have hc1 : 0 < b.countP (fun x => decide (x = p)) :=
          List.countP_pos_iff.mpr ⟨p, hb, by simp⟩
        have hsum0 : (B'.map (fun b => b.countP (fun x => decide (x = p)))).sum = 0 := by
          omega
        have hzero : B'.countP (fun b => decide (p ∈ b)) = 0 := by
          rw [List.countP_eq_zero]
          intro b' hb'
          have h0 : b'.countP (fun x => decide (x = p)) = 0 :=
            (List.sum_eq_zero_iff).mp hsum0 _ (List.mem_map.mpr ⟨b', hb', rfl⟩)
          have hnm : p ∉ b' := by
            intro hmem
            have hpos : 0 < b'.countP (fun x => decide (x = p)) :=
              List.countP_pos_iff.mpr ⟨p, hmem, by simp⟩
            omega
          simp [hnm]
        simp [hb, hzero]
      · have hc0 : b.countP (fun x => decide (x = p)) = 0 := by
          rw [List.countP_eq_zero]
          intro x hx
          simp only [decide_eq_true_eq]
          intro hxp
          exact hb (hxp ▸ hx)
        have := ih (by omega)
        simp [hb, this]

/-- C2: the batcher partitions the (deduplicated) input phrase list, in order,
into consecutive batches; every batch is nonempty and respects the item bound;
every batch holding at least two phrases respects the joined character-length
bound; for deduplicated input every phrase lands in exactly one batch; and a
phrase longer than the bound is still emitted, as a one-element batch. -/
theorem batcher_partitions (m L s : Nat) (hm : 1 ≤ m) (l : List (List Char)) :
    (makeBatches m L s l).flatten = l ∧
    (∀ b ∈ makeBatches m L s l, b ≠ [] ∧ b.length ≤ m ∧
      (2 ≤ b.length → joinedLen s b ≤ L)) ∧
    (l.Nodup → ∀ p ∈ l, (makeBatches m L s l).countP (fun b => decide (p ∈ b)) = 1) ∧
    (∀ p ∈ l, L < p.length → [p] ∈ makeBatches m L s l) := by
  refine ⟨makeBatchesW_join m L s l.length l le_rfl,
    fun b hb => makeBatchesW_bounds m L s hm l.length l b hb, ?_,
    fun p hp hLp => makeBatchesW_long m L s p hLp l.length l le_rfl hp⟩
  intro hnd p hp
  apply countP_eq_one_of_sum_one
  rw [← countP_flatten_eq_sum]
  rw [show makeBatches m L s l = makeBatchesW m L s l.length l from rfl,
    makeBatchesW_join m L s l.length l le_rfl]
  exact nodup_countP_eq_one p l hnd hp

/-- Witness for `batcher_partitions` at small concrete parameters, with one
phrase longer than the length bound. -/
theorem batcher_partitions_check :
    (makeBatches 2 5 1 [['a', 'b'], ['c'], ['d', 'e', 'f', 'g', 'h', 'i']]).flatten =
      [['a', 'b'], ['c'], ['d', 'e', 'f', 'g', 'h', 'i']] ∧
    [['d', 'e', 'f', 'g', 'h', 'i']] ∈
      makeBatches 2 5 1 [['a', 'b'], ['c'], ['d', 'e', 'f', 'g', 'h', 'i']] ∧
    (makeBatches 2 5 1 [['a', 'b'], ['c'], ['d', 'e', 'f', 'g', 'h', 'i']]).countP
      (fun b => decide (['c'] ∈ b)) = 1 :=
  ⟨(batcher_partitions 2 5 1 (by decide)
      [['a', 'b'], ['c'], ['d', 'e', 'f', 'g', 'h', 'i']]).1,
   (batcher_partitions 2 5 1 (by decide)
      [['a', 'b'], ['c'], ['d', 'e', 'f', 'g', 'h', 'i']]).2.2.2
      ['d', 'e', 'f', 'g', 'h', 'i'] (by decide) (by decide),
   (batcher_partitions 2 5 1 (by decide)
      [['a', 'b'], ['c'], ['d', 'e', 'f', 'g', 'h', 'i']]).2.2.1 (by decide)
      ['c'] (by decide)⟩

/-- C10: the batching loop terminates on every finite input.  The inner loop
never blocks on the first phrase of a chunk (the break guard requires a
nonempty chunk), so each outer iteration consumes at least one phrase; any
fuel of at least the number of phrases yields the same batches (the loop
needs at most one outer iteration per phrase); and the number of batches is
bounded by the number of phrases. -/
theorem batcher_loop_terminates (m L s : Nat) :
    (∀ (nxt : List Char) (rest : List (List Char)),
      (fillChunk m L s (nxt :: rest) [] 0).1 ≠ [] ∧
      (fillChunk m L s (nxt :: rest) [] 0).2.1.length < (nxt :: rest).length) ∧
    (∀ (fuel : Nat) (l : List (List Char)), l.length ≤ fuel →
      makeBatchesW m L s fuel l = makeBatches m L s l) ∧
    (∀ l : List (List Char), (makeBatches m L s l).length ≤ l.length) :=
  ⟨fun nxt rest => fillChunk_consumes m L s nxt rest,
   makeBatchesW_fuel_eq m L s,
   fun l => makeBatchesW_count m L s l.length l⟩

/-- Witness for `batcher_loop_terminates` at the
`batch_translate_visible_nodes.py` constants (35 items, 3800 characters,
24-character sentinel). -/
theorem batcher_loop_terminates_check :
    (fillChunk 35 3800 24 [['a']] [] 0).1 ≠ [] ∧
    makeBatchesW 35 3800 24 7 [['a'], ['b']] = makeBatches 35 3800 24 [['a'], ['b']] :=
  ⟨((batcher_loop_terminates 35 3800 24).1 ['a'] []).1,
   (batcher_loop_terminates 35 3800 24).2.1 7 [['a'], ['b']] (by decide)⟩

/-- C7: a no-op replacement — the rebuilt `leading + translated + trailing`
string equals the original node text — neither mutates the node nor counts a
change; when every candidate is a no-op the change count is zero and the
write guard `if changes and not dry_run` blocks the write. -/
theorem noop_replacement_not_counted (mapping : OutMap) (raws : List (List Char))
    (dryRun : Bool)
    (hnoop : ∀ raw ∈ raws,
      replacementFor raw ((lookupO mapping (normalizeCE raw)).getD (normalizeCE raw)) = raw) :
    applyTargets mapping raws = (raws, 0) ∧
    shouldWriteFile (applyTargets mapping raws).2 dryRun = false ∧
    (∀ raw,
      replacementFor raw ((lookupO mapping (normalizeCE raw)).getD (normalizeCE raw)) = raw →
      applyNode mapping raw = (raw, 0)) := by
  have hnode : ∀ raw,
      replacementFor raw ((lookupO mapping (normalizeCE raw)).getD (normalizeCE raw)) = raw →
      applyNode mapping raw = (raw, 0) := by
    intro raw h
    unfold applyNode
    simp only [h, ne_eq, not_true_eq_false, if_false]
  have hmain : applyTargets mapping raws = (raws, 0) := by
    induction raws with
    | nil => rfl
    | cons raw rest ih =>
        have h1 := hnode raw (hnoop raw (by simp))
        have h2 := ih (fun r hr => hnoop r (by simp [hr]))
        unfold applyTargets
        rw [h1, h2]
        rfl
  refine ⟨hmain, ?_, hnode⟩
  rw [hmain]
  simp [shouldWriteFile]

/-- Witness for `noop_replacement_not_counted`: an empty mapping leaves a
whitespace-padded node unchanged and uncounted, and the file write is
skipped. -/
theorem noop_replacement_not_counted_check :
    applyTargets [] ["  ab  ".toList] = (["  ab  ".toList], 0) ∧
    shouldWriteFile (applyTargets [] ["  ab  ".toList]).2 false = false :=
  ⟨(noop_replacement_not_counted [] ["  ab  ".toList] false (by decide)).1,
   (noop_replacement_not_counted [] ["  ab  ".toList] false (by decide)).2.1⟩

/-- The retry loop consults the oracle only on attempts `i, …, i + n - 1`. -/
theorem tgTry_oracle_agree (O O2 : Oracle) (lang t : List Char) (cache : Cache) :
    ∀ (n i : Nat), (∀ j, i ≤ j → j < i + n → O2 lang t j = O lang t j) →
      tgTry O2 lang t cache i n = tgTry O lang t cache i n := by
  intro n
  induction n with
  | zero => intro i _; rfl
  | succ n ih =>
      intro i h
      have h0 : O2 lang t i = O lang t i := h i le_rfl (by omega)
      unfold tgTry
      rw [h0]
      cases hO : O lang t i with
      | some raw =>
          dsimp only
          by_cases he : (stripWS raw).isEmpty
          · rw [if_pos he, if_pos he]
            exact ih (i + 1) (fun j h1 h2 => h j (by omega) (by omega))
          · rw [if_neg he, if_neg he]
      | none =>
          dsimp only
          rw [ih (i + 1) (fun j h1 h2 => h j (by omega) (by omega))]

/-- C8: retry and backoff of the phrase-level translation clients.  The
batch-caller variant (`complete_existing_course_translations.py`) makes at
most 3 attempts with linearly increasing backoff 0.25s, 0.50s, 0.75s
(hundredths of a second here) and raises after exhausting them; the
phrase-level last-resort variant (`complete_arabic_translations.py`) makes at
most 3 attempts with backoff 0.30s, 0.60s and, after the last failure, warns
and returns the original text unchanged, caching the original.  The final
clause bounds the attempts: the result depends only on the first three
oracle answers. -/
theorem translate_google_retry_policy (O : Oracle) (OA : OracleA)
    (lang text : List Char) (cache : Cache) (cacheA : CacheA) :
    ((normalizeCE text).isEmpty = false →
      lookupC cache (lang, normalizeCE text) = none →
      (∀ i, i < 3 → O lang (normalizeCE text) i = none) →
      translate_google_ce O lang text cache = ⟨none, cache, [25, 50, 75]⟩) ∧
    ((normalizeAr text).isEmpty = false →
      lookupA cacheA (normalizeAr text) = none →
      (∀ i, i < 3 → OA (normalizeAr text) i = none) →
      translate_google_ar OA text cacheA =
        ⟨normalizeAr text, (normalizeAr text, normalizeAr text) :: cacheA, [30, 60]⟩) ∧
    (∀ O2 : Oracle,
      (∀ i, i < 3 → O2 lang (normalizeCE text) i = O lang (normalizeCE text) i) →
      translate_google_ce O2 lang text cache = translate_google_ce O lang text cache) := by
  refine ⟨?_, ?_, ?_⟩
  · intro hne hmiss hfail
    have e2 : tgTry O lang (normalizeCE text) cache 2 1 = ⟨none, cache, [75]⟩ := by
      unfold tgTry
      rw [hfail 2 (by omega)]
      rfl
    have e1 : tgTry O lang (normalizeCE text) cache 1 2 = ⟨none, cache, [50, 75]⟩ := by
      unfold tgTry
      rw [hfail 1 (by omega), e2]
    have e0 : tgTry O lang (normalizeCE text) cache 0 3 = ⟨none, cache, [25, 50, 75]⟩ := by
      unfold tgTry
      rw [hfail 0 (by omega), e1]
    unfold translate_google_ce
    rw [if_neg (by simp [hne]), hmiss, e0]
  · intro hne hmiss hfail
    have e2 : tgTryAr OA (normalizeAr text) cacheA 2 1 =
        ⟨normalizeAr text, (normalizeAr text, normalizeAr text) :: cacheA, []⟩ := by
      unfold tgTryAr
      rw [hfail 2 (by omega)]
      rfl
    have e1 : tgTryAr OA (normalizeAr text) cacheA 1 2 =
        ⟨normalizeAr text, (normalizeAr text, normalizeAr text) :: cacheA, [60]⟩ := by
      unfold tgTryAr
      rw [hfail 1 (by omega), if_neg (by omega), e2]
    have e0 : tgTryAr OA (normalizeAr text) cacheA 0 3 =
        ⟨normalizeAr text, (normalizeAr text, normalizeAr text) :: cacheA, [30, 60]⟩ := by
      unfold tgTryAr
      rw [hfail 0 (by omega), if_neg (by omega), e1]
    unfold translate_google_ar
    rw [if_neg (by simp [hne]), hmiss, e0]
  · intro O2 hagree
    unfold translate_google_ce
    by_cases hne : (normalizeCE text).isEmpty
    · rw [if_pos hne, if_pos hne]
    · rw [if_neg hne, if_neg hne]
      cases hl : lookupC cache (lang, normalizeCE text) with
      | some v => rfl
      | none =>
          exact tgTry_oracle_agree O O2 lang (normalizeCE text) cache 3 0
            (fun j h1 h2 => hagree j (by omega))

/-- Witness for `translate_google_retry_policy` with an always-failing
oracle. -/
theorem translate_google_retry_policy_check :
    translate_google_ce (fun _ _ _ => none) "fr".toList "hello there".toList [] =
      ⟨none, [], [25, 50, 75]⟩ ∧
    translate_google_ar (fun _ _ => none) "hello there".toList [] =
      ⟨normalizeAr "hello there".toList,
        (normalizeAr "hello there".toList, normalizeAr "hello there".toList) :: [], [30, 60]⟩ :=
  ⟨(translate_google_retry_policy (fun _ _ _ => none) (fun _ _ => none)
      "fr".toList "hello there".toList [] []).1 (by decide) (by decide)
      (fun i _ => rfl),
   (translate_google_retry_policy (fun _ _ _ => none) (fun _ _ => none)
      "fr".toList "hello there".toList [] []).2.1 (by decide) (by decide)
      (fun i _ => rfl)⟩

/-! ## Idempotence of stripping and normalization -/

theorem dropWhile_head_false (p : Char → Bool) :
    ∀ (l : List Char) (x : Char) (xs : List Char),
      l.dropWhile p = x :: xs → p x = false := by
  intro l
  induction l with
  | nil => intro x xs h; simp at h
  | cons c cs ih =>
      intro x xs h
      by_cases hc : p c
      · rw [List.dropWhile_cons_of_pos hc] at h
        exact ih x xs h
      · rw [List.dropWhile_cons_of_neg hc] at h
        injection h with h1 _
        rw [← h1]
        simpa using hc

theorem dropWhile_idem (p : Char → Bool) (l : List Char) :
    (l.dropWhile p).dropWhile p = l.dropWhile p := by
  cases hd : l.dropWhile p with
  | nil => rfl
  | cons x xs =>
      have hx := dropWhile_head_false p l x xs hd
      rw [List.dropWhile_cons_of_neg (by simp [hx])]

theorem rstripWS_idem (l : List Char) : rstripWS (rstripWS l) = rstripWS l := by
  unfold rstripWS
  rw [List.reverse_reverse, dropWhile_idem]

theorem lstrip_eq_self (l : List Char)
    (h : ∀ x xs, l = x :: xs → isPySpace x = false) : lstripWS l = l := by
  cases l with
  | nil => rfl
  | cons c cs =>
      unfold lstripWS
      rw [List.dropWhile_cons_of_neg (by simp [h c cs rfl])]

theorem rstrip_eq_self (l : List Char)
    (h : ∀ x xs, l.reverse = x :: xs → isPySpace x = false) : rstripWS l = l := by
  unfold rstripWS
  have : l.reverse.dropWhile isPySpace = l.reverse := by
    cases hr : l.reverse with
    | nil => rfl
    | cons c cs => rw [List.dropWhile_cons_of_neg (by simp [h c cs hr])]
  rw [this, List.reverse_reverse]

theorem rstrip_pref (l : List Char) : rstripWS l <+: l := by
  have hs : l.reverse.dropWhile isPySpace <:+ l.reverse := List.dropWhile_suffix _
  obtain ⟨t, ht⟩ := hs
  refine ⟨t.reverse, ?_⟩
  unfold rstripWS
  rw [← List.reverse_append, ht, List.reverse_reverse]

theorem stripWS_idem (l : List Char) : stripWS (stripWS l) = stripWS l := by
  unfold stripWS
  have hl : lstripWS (rstripWS (lstripWS l)) = rstripWS (lstripWS l) := by
    apply lstrip_eq_self
    intro x xs hx
    obtain ⟨t, ht⟩ := rstrip_pref (lstripWS l)
    have hls : lstripWS l = x :: (xs ++ t) := by
      rw [← ht, hx]
      simp
    exact dropWhile_head_false isPySpace l x (xs ++ t) hls
  rw [hl, rstripWS_idem]

theorem stripWS_ne_nil_of (l : List Char) (h : stripWS l ≠ []) :
    (stripWS l).isEmpty = false := by
  cases hs : stripWS l with
  | nil => exact absurd hs h
  | cons c cs => rfl

/-! ## Association-list cache lemmas -/

theorem lookupC_insert_self (c : Cache) (k : TransKey) (v : List Char) :
    lookupC (insertC c k v) k = some v := by
  simp [lookupC, insertC, List.find?]

theorem lookupC_insert_ne (c : Cache) (k k' : TransKey) (v : List Char) (h : k ≠ k') :
    lookupC (insertC c k v) k' = lookupC c k' := by
  have hd : decide (k = k') = false := by simp [h]
  simp [lookupC, insertC, List.find?, hd]

theorem lookupC_insert_isSome (c : Cache) (k k' : TransKey) (v : List Char)
    (h : (lookupC c k').isSome) : (lookupC (insertC c k v) k').isSome := by
  by_cases hk : k = k'
  · subst hk
    rw [lookupC_insert_self]
    rfl
  · rw [lookupC_insert_ne c k k' v hk]
    exact h

theorem cacheLe_refl (c : Cache) : cacheLe c c := fun _ h => h

theorem cacheLe_trans {a b c : Cache} (h1 : cacheLe a b) (h2 : cacheLe b c) :
    cacheLe a c := fun k h => h2 k (h1 k h)

theorem cacheExt_refl (c : Cache) : cacheExt c c := fun _ _ h => h

theorem cacheExt_trans {a b c : Cache} (h1 : cacheExt a b) (h2 : cacheExt b c) :
    cacheExt a c := fun k v h => h2 k v (h1 k v h)

theorem cacheExt_le {a b : Cache} (h : cacheExt a b) : cacheLe a b := by
  intro k hk
  cases hl : lookupC a k with
  | none => rw [hl] at hk; simp at hk
  | some v => rw [h k v hl]; rfl

theorem cacheLe_insert (c : Cache) (k : TransKey) (v : List Char) :
    cacheLe c (insertC c k v) :=
  fun k' h => lookupC_insert_isSome c k k' v h

theorem cacheExt_insert_fresh (c : Cache) (k : TransKey) (v : List Char)
    (h : lookupC c k = none) : cacheExt c (insertC c k v) := by
  intro k' v' hv
  by_cases hk : k = k'
  · subst hk
    rw [h] at hv
    exact absurd hv (by simp)
  · rw [lookupC_insert_ne c k k' v hk]
    exact hv

theorem cacheExt_insert_same (c : Cache) (k : TransKey) (v : List Char)
    (h : lookupC c k = some v) : cacheExt c (insertC c k v) := by
  intro k' v' hv
  by_cases hk : k = k'
  · subst hk
    rw [lookupC_insert_self]
    rw [h] at hv
    exact hv
  · rw [lookupC_insert_ne c k k' v hk]
    exact hv

/-! ## Shape of the retry loop and the client -/

/-- The retry loop either raises leaving the cache untouched, or succeeds with
a nonempty strip-fixed translation that it inserts under `(lang, t)`. -/
theorem tgTry_shape (O : Oracle) (lang t : List Char) (cache : Cache) :
    ∀ (n i : Nat),
      ((tgTry O lang t cache i n).res = none ∧ (tgTry O lang t cache i n).cache = cache) ∨
      (∃ v, (tgTry O lang t cache i n).res = some v ∧ v ≠ [] ∧ stripWS v = v ∧
        (tgTry O lang t cache i n).cache = insertC cache (lang, t) v) := by
  intro n
  induction n with
  | zero => intro i; exact Or.inl ⟨rfl, rfl⟩
  | succ n ih =>
      intro i
      unfold tgTry
      cases hO : O lang t i with
      | some raw =>
          dsimp only
          by_cases he : (stripWS raw).isEmpty
          · rw [if_pos he]
            exact ih (i + 1)
          · rw [if_neg he]
            refine Or.inr ⟨stripWS raw, rfl, ?_, stripWS_idem raw, rfl⟩
            intro hnil
            rw [hnil] at he
            exact he rfl
      | none =>
          dsimp only
          rcases ih (i + 1) with ⟨h1, h2⟩ | ⟨v, h1, h2, h3, h4⟩
          · exact Or.inl ⟨h1, h2⟩
          · exact Or.inr ⟨v, h1, h2, h3, h4⟩

/-- Consulted before the network: a cached key short-circuits the client. -/
theorem tg_hit (O : Oracle) (lang text : List Char) (cache : Cache) (v : List Char)
    (hne : (normalizeCE text).isEmpty = false)
    (h : lookupC cache (lang, normalizeCE text) = some v) :
    translate_google_ce O lang text cache = ⟨some v, cache, []⟩ := by
  unfold translate_google_ce
  rw [if_neg (by simp [hne]), h]

/-- The client never changes the value of a present key. -/
theorem tg_ext (O : Oracle) (lang text : List Char) (cache : Cache) :
    cacheExt cache (translate_google_ce O lang text cache).cache := by
  unfold translate_google_ce
  by_cases hne : (normalizeCE text).isEmpty
  · rw [if_pos hne]
    exact cacheExt_refl cache
  · rw [if_neg hne]
    cases hl : lookupC cache (lang, normalizeCE text) with
    | some v => exact cacheExt_refl cache
    | none =>
        dsimp only
        rcases tgTry_shape O lang (normalizeCE text) cache 3 0 with ⟨_, h2⟩ | ⟨v, _, _, _, h4⟩
        · rw [h2]; exact cacheExt_refl cache
        · rw [h4]; exact cacheExt_insert_fresh cache _ v hl

theorem tg_le (O : Oracle) (lang text : List Char) (cache : Cache) :
    cacheLe cache (translate_google_ce O lang text cache).cache :=
  cacheExt_le (tg_ext O lang text cache)

/-- Populated immediately after success. -/
theorem tg_success_key (O : Oracle) (lang text : List Char) (cache : Cache) (v : List Char)
    (hne : (normalizeCE text).isEmpty = false)
    (hres : (translate_google_ce O lang text cache).res = some v) :
    lookupC (translate_google_ce O lang text cache).cache (lang, normalizeCE text) = some v := by
  unfold translate_google_ce at hres ⊢
  rw [if_neg (by simp [hne])] at hres ⊢
  cases hl : lookupC cache (lang, normalizeCE text) with
  | some w =>
      rw [hl] at hres
      dsimp only at hres ⊢
      injection hres with h
      rw [← h]
      exact hl
  | none =>
      rw [hl] at hres
      dsimp only at hres ⊢
      rcases tgTry_shape O lang (normalizeCE text) cache 3 0 with ⟨h1, _⟩ | ⟨w, h1, _, _, h4⟩
      · rw [h1] at hres
        exact absurd hres (by simp)
      · rw [h1] at hres
        injection hres with h
        rw [h4, ← h]
        exact lookupC_insert_self cache _ w

/-- On a raise the cache is untouched. -/
theorem tg_none_id (O : Oracle) (lang text : List Char) (cache : Cache)
    (hres : (translate_google_ce O lang text cache).res = none) :
    (translate_google_ce O lang text cache).cache = cache := by
  unfold translate_google_ce at hres ⊢
  by_cases hne : (normalizeCE text).isEmpty
  · rw [if_pos hne] at hres
    exact absurd hres (by simp)
  · rw [if_neg hne] at hres ⊢
    cases hl : lookupC cache (lang, normalizeCE text) with
    | some w => rfl
    | none =>
        rw [hl] at hres
        dsimp only at hres
        rcases tgTry_shape O lang (normalizeCE text) cache 3 0 with ⟨_, h2⟩ | ⟨w, h1, _, _, _⟩
        · exact h2
        · rw [h1] at hres
          exact absurd hres (by simp)

/-- Keys added by the client are at most the normalized query key. -/
theorem tg_dom (O : Oracle) (lang text : List Char) (cache : Cache) :
    ∀ k, (lookupC (translate_google_ce O lang text cache).cache k).isSome →
      (lookupC cache k).isSome ∨ k = (lang, normalizeCE text) := by
  intro k hk
  unfold translate_google_ce at hk
  by_cases hne : (normalizeCE text).isEmpty
  · rw [if_pos hne] at hk
    exact Or.inl hk
  · rw [if_neg hne] at hk
    cases hl : lookupC cache (lang, normalizeCE text) with
    | some w => rw [hl] at hk; exact Or.inl hk
    | none =>
        rw [hl] at hk
        dsimp only at hk
        rcases tgTry_shape O lang (normalizeCE text) cache 3 0 with ⟨_, h2⟩ | ⟨w, _, _, _, h4⟩
        · rw [h2] at hk; exact Or.inl hk
        · rw [h4] at hk
          by_cases hkk : k = (lang, normalizeCE text)
          · exact Or.inr hkk
          · rw [lookupC_insert_ne cache _ k w (fun h => hkk h.symm)] at hk
            exact Or.inl hk

/-! ## Split, success-path write, and fallback lemmas -/

theorem splitAux_ne_nil (sep : List Char) :
    ∀ (fuel : Nat) (acc l : List Char), splitAux sep fuel acc l ≠ [] := by
  intro fuel
  induction fuel with
  | zero => intro acc l; simp [splitAux]
  | succ f ih =>
      intro acc l
      unfold splitAux
      by_cases hp : sep.isPrefixOf l
      · rw [if_pos hp]; simp
      · rw [if_neg hp]
        cases l with
        | nil => simp
        | cons c cs => exact ih (c :: acc) cs

theorem splitAux_len_one (sep : List Char) :
    ∀ (fuel : Nat) (acc l : List Char),
      (splitAux sep fuel acc l).length = 1 →
      splitAux sep fuel acc l = [acc.reverse ++ l] := by
  intro fuel
  induction fuel with
  | zero => intro acc l _; rfl
  | succ f ih =>
      intro acc l hlen
      unfold splitAux at hlen ⊢
      by_cases hp : sep.isPrefixOf l
      · rw [if_pos hp] at hlen
        exfalso
        have := splitAux_ne_nil sep f [] (l.drop sep.length)
        cases hs : splitAux sep f [] (l.drop sep.length) with
        | nil => exact this hs
        | cons a b =>
            rw [hs] at hlen
            simp at hlen
      · rw [if_neg hp] at hlen ⊢
        cases l with
        | nil => simp
        | cons c cs =>
            dsimp only at hlen ⊢
            have := ih (c :: acc) cs hlen
            rw [this]
            simp

/-- A one-part split is the whole string. -/
theorem splitOnSub_len_one (sep l : List Char)
    (h : (splitOnSub sep l).length = 1) : splitOnSub sep l = [l] := by
  have := splitAux_len_one sep (l.length + 1) [] l h
  simpa [splitOnSub] using this

theorem zipWrite_le (lang : List Char) :
    ∀ (ss ps : List (List Char)) (c : Cache), cacheLe c (zipWrite lang ss ps c) := by
  intro ss
  induction ss with
  | nil => intro ps c; exact cacheLe_refl c
  | cons src rest ih =>
      intro ps c
      cases ps with
      | nil => exact cacheLe_refl c
      | cons p ps' =>
          exact cacheLe_trans (cacheLe_insert c _ _) (ih ps' _)

theorem zipWrite_complete (lang : List Char) :
    ∀ (ss ps : List (List Char)) (c : Cache), ps.length = ss.length →
      ∀ src ∈ ss, (lookupC (zipWrite lang ss ps c) (lang, src)).isSome := by
  intro ss
  induction ss with
  | nil => intro ps c _ src hsrc; simp at hsrc
  | cons s rest ih =>
      intro ps c hlen src hsrc
      cases ps with
      | nil => simp at hlen
      | cons p ps' =>
          rcases List.mem_cons.mp hsrc with heq | hmem
          · subst heq
            apply zipWrite_le lang rest ps'
            rw [lookupC_insert_self]
            rfl
          · exact ih ps' _ (by simpa using hlen) src hmem

theorem zipWrite_dom (lang : List Char) :
    ∀ (ss ps : List (List Char)) (c : Cache) (k : TransKey),
      (lookupC (zipWrite lang ss ps c) k).isSome →
      (lookupC c k).isSome ∨ ∃ src ∈ ss, k = (lang, src) := by
  intro ss
  induction ss with
  | nil => intro ps c k h; exact Or.inl h
  | cons s rest ih =>
      intro ps c k h
      cases ps with
      | nil => exact Or.inl h
      | cons p ps' =>
          rcases ih ps' _ k h with h2 | ⟨src, hsrc, hk⟩
          · by_cases hk : k = (lang, s)
            · exact Or.inr ⟨s, by simp, hk⟩
            · rw [lookupC_insert_ne c (lang, s) k _ (fun he => hk he.symm)] at h2
              exact Or.inl h2
          · exact Or.inr ⟨src, by simp [hsrc], hk⟩

theorem zipWrite_ext_fresh (lang : List Char) :
    ∀ (ss ps : List (List Char)) (c : Cache), ss.Nodup →
      (∀ src ∈ ss, lookupC c (lang, src) = none) →
      cacheExt c (zipWrite lang ss ps c) := by
  intro ss
  induction ss with
  | nil => intro ps c _ _; exact cacheExt_refl c
  | cons s rest ih =>
      intro ps c hnd habs
      cases ps with
      | nil => exact cacheExt_refl c
      | cons p ps' =>
          have hnd' := List.nodup_cons.mp hnd
          have hfresh : cacheExt c
              (insertC c (lang, s) (if (stripWS p).isEmpty then s else stripWS p)) :=
            cacheExt_insert_fresh c (lang, s) _ (habs s (by simp))
          refine cacheExt_trans hfresh (ih ps' _ hnd'.2 ?_)
          intro src hsrc
          rw [lookupC_insert_ne c (lang, s) (lang, src) _ (by
            intro he
            injection he with _ h2
            exact hnd'.1 (h2 ▸ hsrc))]
          exact habs src (by simp [hsrc])

theorem fallbackChunk_cons_some (O : Oracle) (lang src : List Char)
    (ss : List (List Char)) (c : Cache) (v : List Char)
    (h : (translate_google_ce O lang src c).res = some v) :
    fallbackChunk O lang (src :: ss) c =
      fallbackChunk O lang ss (translate_google_ce O lang src c).cache := by
  simp only [fallbackChunk, h]

theorem fallbackChunk_cons_none (O : Oracle) (lang src : List Char)
    (ss : List (List Char)) (c : Cache)
    (h : (translate_google_ce O lang src c).res = none) :
    fallbackChunk O lang (src :: ss) c =
      fallbackChunk O lang ss
        (insertC (translate_google_ce O lang src c).cache (lang, src) src) := by
  simp only [fallbackChunk, h]

theorem fallback_le (O : Oracle) (lang : List Char) :
    ∀ (ss : List (List Char)) (c : Cache), cacheLe c (fallbackChunk O lang ss c) := by
  intro ss
  induction ss with
  | nil => intro c; exact cacheLe_refl c
  | cons src rest ih =>
      intro c
      cases hres : (translate_google_ce O lang src c).res with
      | some v =>
          rw [fallbackChunk_cons_some O lang src rest c v hres]
          exact cacheLe_trans (tg_le O lang src c) (ih _)
      | none =>
          rw [fallbackChunk_cons_none O lang src rest c hres]
          exact cacheLe_trans (cacheLe_trans (tg_le O lang src c) (cacheLe_insert _ _ _)) (ih _)

theorem fallback_ext (O : Oracle) (lang : List Char) :
    ∀ (ss : List (List Char)) (c : Cache),
      (∀ src ∈ ss, normalizeCE src = src ∧ src ≠ []) →
      cacheExt c (fallbackChunk O lang ss c) := by
  intro ss
  induction ss with
  | nil => intro c _; exact cacheExt_refl c
  | cons src rest ih =>
      intro c hsrc
      obtain ⟨hfix, hne⟩ := hsrc src (by simp)
      have hemp : (normalizeCE src).isEmpty = false := by
        rw [hfix]
        cases src with
        | nil => exact absurd rfl hne
        | cons a b => rfl
      cases hres : (translate_google_ce O lang src c).res with
      | some v =>
          rw [fallbackChunk_cons_some O lang src rest c v hres]
          exact cacheExt_trans (tg_ext O lang src c)
            (ih _ (fun s hs => hsrc s (by simp [hs])))
      | none =>
          rw [fallbackChunk_cons_none O lang src rest c hres]
          have hid := tg_none_id O lang src c hres
          have habs : lookupC c (lang, src) = none := by
            cases hl : lookupC c (lang, src) with
            | none => rfl
            | some w =>
                have := tg_hit O lang src c w hemp (by rw [hfix]; exact hl)
                rw [this] at hres
                simp at hres
          rw [hid]
          exact cacheExt_trans (cacheExt_insert_fresh c (lang, src) src habs)
            (ih _ (fun s hs => hsrc s (by simp [hs])))

theorem fallback_complete (O : Oracle) (lang : List Char) :
    ∀ (ss : List (List Char)) (c : Cache),
      (∀ src ∈ ss, normalizeCE src = src ∧ src ≠ []) →
      ∀ src ∈ ss, (lookupC (fallbackChunk O lang ss c) (lang, src)).isSome := by
  intro ss
  induction ss with
  | nil => intro c _ src hsrc; simp at hsrc
  | cons s rest ih =>
      intro c hss src hsrc
      obtain ⟨hfix, hne⟩ := hss s (by simp)
      have hemp : (normalizeCE s).isEmpty = false := by
        rw [hfix]
        cases s with
        | nil => exact absurd rfl hne
        | cons a b => rfl
      rcases List.mem_cons.mp hsrc with heq | hmem
      · subst heq
        cases hres : (translate_google_ce O lang src c).res with
        | some v =>
            rw [fallbackChunk_cons_some O lang src rest c v hres]
            apply fallback_le O lang rest
            have := tg_success_key O lang src c v hemp hres
            rw [hfix] at this
            rw [this]
            rfl
        | none =>
            rw [fallbackChunk_cons_none O lang src rest c hres]
            apply fallback_le O lang rest
            rw [lookupC_insert_self]
            rfl
      · cases hres : (translate_google_ce O lang s c).res with
        | some v =>
            rw [fallbackChunk_cons_some O lang s rest c v hres]
            exact ih _ (fun x hx => hss x (by simp [hx])) src hmem
        | none =>
            rw [fallbackChunk_cons_none O lang s rest c hres]
            exact ih _ (fun x hx => hss x (by simp [hx])) src hmem

theorem fallback_dom (O : Oracle) (lang : List Char) :
    ∀ (ss : List (List Char)) (c : Cache),
      (∀ src ∈ ss, normalizeCE src = src) →
      ∀ k, (lookupC (fallbackChunk O lang ss c) k).isSome →
        (lookupC c k).isSome ∨ ∃ src ∈ ss, k = (lang, src) := by
  intro ss
  induction ss with
  | nil => intro c _ k h; exact Or.inl h
  | cons s rest ih =>
      intro c hss k h
      cases hres : (translate_google_ce O lang s c).res with
      | some v =>
          rw [fallbackChunk_cons_some O lang s rest c v hres] at h
          rcases ih _ (fun x hx => hss x (by simp [hx])) k h with h2 | ⟨src, hsrc, hk⟩
          · rcases tg_dom O lang s c k h2 with h3 | h3
            · exact Or.inl h3
            · exact Or.inr ⟨s, by simp, by rw [h3, hss s (by simp)]⟩
          · exact Or.inr ⟨src, by simp [hsrc], hk⟩
      | none =>
          rw [fallbackChunk_cons_none O lang s rest c hres] at h
          rcases ih _ (fun x hx => hss x (by simp [hx])) k h with h2 | ⟨src, hsrc, hk⟩
          · by_cases hk : k = (lang, s)
            · exact Or.inr ⟨s, by simp, hk⟩
            · rw [tg_none_id O lang s c hres,
                lookupC_insert_ne c (lang, s) k s (fun he => hk he.symm)] at h2
              exact Or.inl h2
          · exact Or.inr ⟨src, by simp [hsrc], hk⟩

theorem squeezeAux_eq_self :
    ∀ l : List Char,
      (∀ c ∈ l, isPySpace c = true → c = ' ') →
      List.Chain' (fun a b => (!(isPySpace a && isPySpace b)) = true) l →
      squeezeAux false l = l ∧
      (l.head?.all (fun x => !isPySpace x) = true → squeezeAux true l = l) := by
  intro l
  induction l with
  | nil => intro _ _; exact ⟨rfl, fun _ => rfl⟩
  | cons c cs ih =>
      intro hall hch
      have hch' := List.chain'_cons'.mp hch
      have ihcs := ih (fun d hd h => hall d (by simp [hd]) h) hch'.2
      by_cases hc : isPySpace c
      · have hsp : c = ' ' := hall c (by simp) hc
        constructor
        · show squeezeAux false (c :: cs) = c :: cs
          unfold squeezeAux
          rw [if_pos hc]
          have hhd : cs.head?.all (fun x => !isPySpace x) = true := by
            cases cs with
            | nil => rfl
            | cons d ds =>
                have hr := hch'.1 d rfl
                simp only [hc, Bool.true_and, Bool.not_eq_true'] at hr
                simp [hr]
          rw [ihcs.2 hhd, hsp]
          rfl
        · intro hhead
          exfalso
          simp only [List.head?_cons, Option.all_some] at hhead
          rw [hc] at hhead
          simp at hhead
      · constructor
        · unfold squeezeAux
          rw [if_neg hc, ihcs.1]
        · intro _
          unfold squeezeAux
          rw [if_neg hc, ihcs.1]

theorem head_cond_iff (l : List Char) :
    l.head?.all (fun x => !isPySpace x) = true ↔
      (∀ x xs, l = x :: xs → isPySpace x = false) := by
  cases l with
  | nil => simp
  | cons c cs =>
      simp only [List.head?_cons, Option.all_some]
      constructor
      · intro h x xs he
        injection he with h1 _
        rw [← h1]
        simpa using h
      · intro h
        simp [h c cs rfl]

/-- A `wsOk` string is a fixed point of `normalizeCE`. -/
theorem wsOk_norm_fixed (l : List Char) (h : wsOk l) : normalizeCE l = l := by
  obtain ⟨h1, h2, h3, h4, h5⟩ := h
  unfold normalizeCE
  rw [h5]
  rw [show squeezeWS l = l from (squeezeAux_eq_self l h1 h2).1]
  unfold stripWS
  rw [lstrip_eq_self l ((head_cond_iff l).mp h3)]
  exact rstrip_eq_self l (fun x xs hx => ((head_cond_iff l.reverse).mp h4) x xs hx)

theorem squeezeAux_space_char :
    ∀ (l : List Char) (b : Bool), ∀ c ∈ squeezeAux b l, isPySpace c = true → c = ' ' := by
  intro l
  induction l with
  | nil => intro b c hc; simp [squeezeAux] at hc
  | cons d ds ih =>
      intro b c hc hsp
      unfold squeezeAux at hc
      by_cases hd : isPySpace d
      · rw [if_pos hd] at hc
        rcases List.mem_append.mp hc with h | h
        · cases b with
          | true => exact absurd h (by simp)
          | false =>
              have h2 : c = ' ' := by simpa using h
              exact h2
        · exact ih true c h hsp
      · rw [if_neg hd] at hc
        rcases List.mem_cons.mp hc with h | h
        · rw [h] at hsp
          exact absurd hsp (by simpa using hd)
        · exact ih false c h hsp

theorem squeezeAux_mem :
    ∀ (l : List Char) (b : Bool), ∀ c ∈ squeezeAux b l, c ∈ l ∨ c = ' ' := by
  intro l
  induction l with
  | nil => intro b c hc; simp [squeezeAux] at hc
  | cons d ds ih =>
      intro b c hc
      unfold squeezeAux at hc
      by_cases hd : isPySpace d
      · rw [if_pos hd] at hc
        rcases List.mem_append.mp hc with h | h
        · cases b with
          | true => exact absurd h (by simp)
          | false =>
              have h2 : c = ' ' := by simpa using h
              exact Or.inr h2
        · rcases ih true c h with h2 | h2
          · exact Or.inl (by simp [h2])
          · exact Or.inr h2
      · rw [if_neg hd] at hc
        rcases List.mem_cons.mp hc with h | h
        · exact Or.inl (by simp [h])
        · rcases ih false c h with h2 | h2
          · exact Or.inl (by simp [h2])
          · exact Or.inr h2

theorem squeezeAux_true_head :
    ∀ (l : List Char) (x : Char) (xs : List Char),
      squeezeAux true l = x :: xs → isPySpace x = false := by
  intro l
  induction l with
  | nil => intro x xs h; simp [squeezeAux] at h
  | cons d ds ih =>
      intro x xs h
      unfold squeezeAux at h
      by_cases hd : isPySpace d
      · rw [if_pos hd] at h
        simp only [List.nil_append] at h
        exact ih x xs h
      · rw [if_neg hd] at h
        injection h with h1 _
        rw [← h1]
        simpa using hd

theorem squeezeAux_chain :
    ∀ (l : List Char) (b : Bool),
      List.Chain' (fun a b => (!(isPySpace a && isPySpace b)) = true) (squeezeAux b l) := by
  intro l
  induction l with
  | nil => intro b; simp [squeezeAux]
  | cons d ds ih =>
      intro b
      unfold squeezeAux
      by_cases hd : isPySpace d
      · rw [if_pos hd]
        cases b with
        | true => exact ih true
        | false =>
            refine List.chain'_cons'.mpr ⟨?_, ih true⟩
            intro y hy
            cases hs : squeezeAux true ds with
            | nil => rw [hs] at hy; simp at hy
            | cons z zs =>
                rw [hs] at hy
                have hy2 : z = y := by simpa using hy
                have := squeezeAux_true_head ds z zs hs
                rw [← hy2]
                simp [this]
      · rw [if_neg hd]
        refine List.chain'_cons'.mpr ⟨?_, ih false⟩
        intro y _
        simp [(by simpa using hd : isPySpace d = false)]

theorem mem_stripWS (l : List Char) : ∀ c ∈ stripWS l, c ∈ l := by
  intro c hc
  unfold stripWS at hc
  have h1 : c ∈ lstripWS l := (rstrip_pref (lstripWS l)).subset hc
  exact (List.dropWhile_suffix isPySpace).subset h1

theorem foldQuote_idem (c : Char) : foldQuote (foldQuote c) = foldQuote c := by
  unfold foldQuote
  by_cases h1 : c = Char.ofNat 0x2019
  · simp [h1]
  · by_cases h2 : c = Char.ofNat 0x2018
    · simp [h1, h2]
    · simp [h1, h2]

theorem map_fixed_of (f : Char → Char) :
    ∀ l : List Char, (∀ c ∈ l, f c = c) → l.map f = l := by
  intro l
  induction l with
  | nil => intro _; rfl
  | cons c cs ih =>
      intro h
      simp only [List.map_cons]
      rw [h c (by simp), ih (fun d hd => h d (by simp [hd]))]

/-- The output of `normalizeCE` satisfies `wsOk`. -/
theorem wsOk_normalizeCE (t : List Char) : wsOk (normalizeCE t) := by
  have hw : normalizeCE t = stripWS (squeezeWS (t.map foldQuote)) := rfl
  refine ⟨?_, ?_, ?_, ?_, ?_⟩
  · intro c hc hsp
    rw [hw] at hc
    have := mem_stripWS _ c hc
    exact squeezeAux_space_char (t.map foldQuote) false c this hsp
  · rw [hw]
    unfold stripWS
    have hchain := squeezeAux_chain (t.map foldQuote) false
    have h1 : List.Chain' (fun a b => (!(isPySpace a && isPySpace b)) = true)
        (lstripWS (squeezeWS (t.map foldQuote))) :=
      hchain.suffix (List.dropWhile_suffix isPySpace)
    exact h1.prefix (rstrip_pref _)
  · rw [hw]
    unfold stripWS
    rw [head_cond_iff]
    intro x xs hx
    obtain ⟨tl, htl⟩ := rstrip_pref (lstripWS (squeezeWS (t.map foldQuote)))
    have hls : lstripWS (squeezeWS (t.map foldQuote)) = x :: (xs ++ tl) := by
      rw [← htl, hx]
      simp
    exact dropWhile_head_false isPySpace _ x (xs ++ tl) hls
  · rw [hw]
    unfold stripWS rstripWS
    rw [List.reverse_reverse, head_cond_iff]
    intro x xs hx
    exact dropWhile_head_false isPySpace _ x xs hx
  · rw [hw]
    apply map_fixed_of
    intro c hc
    have h1 := mem_stripWS _ c hc
    rcases squeezeAux_mem (t.map foldQuote) false c h1 with h2 | h2
    · obtain ⟨d, _, hd⟩ := List.mem_map.mp h2
      rw [← hd]
      exact foldQuote_idem d
    · rw [h2]
      rfl

/-- Idempotence of `normalize`. -/
theorem normalizeCE_idem (t : List Char) :
    normalizeCE (normalizeCE t) = normalizeCE t :=
  wsOk_norm_fixed _ (wsOk_normalizeCE t)

/-- A fixed point of `normalizeCE` satisfies `wsOk`. -/
theorem wsOk_of_fixed (l : List Char) (h : normalizeCE l = l) : wsOk l := by
  rw [← h]
  exact wsOk_normalizeCE l

/-- `wsOk` is preserved by concatenation of nonempty strings. -/
theorem wsOk_append (a b : List Char) (ha : wsOk a) (hb : wsOk b)
    (hna : a ≠ []) (hnb : b ≠ []) : wsOk (a ++ b) := by
  obtain ⟨a1, a2, a3, a4, a5⟩ := ha
  obtain ⟨b1, b2, b3, b4, b5⟩ := hb
  refine ⟨?_, ?_, ?_, ?_, ?_⟩
  · intro c hc hsp
    rcases List.mem_append.mp hc with h | h
    · exact a1 c h hsp
    · exact b1 c h hsp
  · rw [List.chain'_append]
    refine ⟨a2, b2, ?_⟩
    intro x hx y hy
    have hx' : a.reverse.head? = some x := by
      rw [List.head?_reverse]
      exact hx
    have : isPySpace x = false := by
      rw [hx'] at a4
      simpa using a4
    simp [this]
  · cases a with
    | nil => exact absurd rfl hna
    | cons c cs =>
        simpa using a3
  · rw [List.reverse_append]
    cases hb : b.reverse with
    | nil =>
        exact absurd (by simpa using congrArg List.reverse hb) hnb
    | cons c cs =>
        rw [hb] at b4
        simpa using b4
  · rw [List.map_append, a5, b5]

/-! ## The joined batch request -/

theorem chain'_of_no_space (l : List Char) (h : ∀ c ∈ l, isPySpace c = false) :
    List.Chain' (fun a b => (!(isPySpace a && isPySpace b)) = true) l := by
  induction l with
  | nil => simp
  | cons c cs ih =>
      refine List.chain'_cons'.mpr ⟨?_, ih (fun d hd => h d (by simp [hd]))⟩
      intro y _
      simp [h c (by simp)]

theorem wsOk_sepCE : wsOk sepCE := by
  refine ⟨by decide, chain'_of_no_space sepCE (by decide), by decide, by decide, by decide⟩

/-- A sentinel-joined chunk of normalized nonempty phrases is itself a
normalization fixed point. -/
theorem joinSep_wsOk :
    ∀ chunk : List (List Char), chunk ≠ [] →
      (∀ x ∈ chunk, wsOk x ∧ x ≠ []) →
      wsOk (joinSep sepCE chunk) ∧ joinSep sepCE chunk ≠ [] := by
  intro chunk
  induction chunk with
  | nil => intro h _; exact absurd rfl h
  | cons x rest ih =>
      intro _ hall
      cases rest with
      | nil =>
          exact ⟨(hall x (by simp)).1, (hall x (by simp)).2⟩
      | cons y t =>
          have hx := hall x (by simp)
          have hrest := ih (by simp) (fun z hz => hall z (by simp [hz]))
          have hsep : sepCE ≠ [] := by decide
          have h1 : wsOk (x ++ sepCE) :=
            wsOk_append x sepCE hx.1 wsOk_sepCE hx.2 hsep
          have h2 : x ++ sepCE ≠ [] := by
            simp [hx.2]
          constructor
          · show wsOk (x ++ sepCE ++ joinSep sepCE (y :: t))
            exact wsOk_append (x ++ sepCE) (joinSep sepCE (y :: t)) h1 hrest.1 h2 hrest.2
          · show x ++ sepCE ++ joinSep sepCE (y :: t) ≠ []
            simp [hx.2]

/-- With at least two phrases, the joined request contains the sentinel. -/
theorem joinSep_sep_infix (x y : List Char) (t : List (List Char)) :
    sepCE <:+: joinSep sepCE (x :: y :: t) := by
  show sepCE <:+: x ++ sepCE ++ joinSep sepCE (y :: t)
  exact ⟨x, joinSep sepCE (y :: t), by simp⟩

/-! ## The dedup/filter prologues -/

theorem filterUniqAux_shape (lang : List Char) (cache : Cache) :
    ∀ (texts : List (List Char)) (seen : List (List Char)),
      ∀ x ∈ filterUniqAux lang cache seen texts,
        (∃ t ∈ texts, x = normalizeCE t) ∧ x ≠ [] ∧
          lookupC cache (lang, x) = none := by
  intro texts
  induction texts with
  | nil => intro seen x hx; simp [filterUniqAux] at hx
  | cons t rest ih =>
      intro seen x hx
      unfold filterUniqAux at hx
      by_cases h1 : (normalizeCE t).isEmpty
      · rw [if_pos h1] at hx
        obtain ⟨⟨t', ht', he⟩, h2, h3⟩ := ih seen x hx
        exact ⟨⟨t', by simp [ht'], he⟩, h2, h3⟩
      · rw [if_neg h1] at hx
        by_cases h2 : (lookupC cache (lang, normalizeCE t)).isSome
        · rw [if_pos h2] at hx
          obtain ⟨⟨t', ht', he⟩, h3, h4⟩ := ih seen x hx
          exact ⟨⟨t', by simp [ht'], he⟩, h3, h4⟩
        · rw [if_neg h2] at hx
          by_cases h3 : normalizeCE t ∈ seen
          · rw [if_pos h3] at hx
            obtain ⟨⟨t', ht', he⟩, h4, h5⟩ := ih seen x hx
            exact ⟨⟨t', by simp [ht'], he⟩, h4, h5⟩
          · rw [if_neg h3] at hx
            rcases List.mem_cons.mp hx with heq | hmem
            · subst heq
              refine ⟨⟨t, by simp, rfl⟩, ?_, ?_⟩
              · intro hnil
                rw [hnil] at h1
                exact h1 rfl
              · cases hl : lookupC cache (lang, normalizeCE t) with
                | none => rfl
                | some w => rw [hl] at h2; exact absurd rfl h2
            · obtain ⟨⟨t', ht', he⟩, h4, h5⟩ := ih _ x hmem
              exact ⟨⟨t', by simp [ht'], he⟩, h4, h5⟩

theorem filterUniqAux_covers (lang : List Char) (cache : Cache) :
    ∀ (texts : List (List Char)) (seen : List (List Char)), ∀ t ∈ texts,
      (normalizeCE t).isEmpty = false →
      normalizeCE t ∈ filterUniqAux lang cache seen texts ∨
        (lookupC cache (lang, normalizeCE t)).isSome ∨ normalizeCE t ∈ seen := by
  intro texts
  induction texts with
  | nil => intro seen t ht; simp at ht
  | cons u rest ih =>
      intro seen t ht hne
      unfold filterUniqAux
      rcases List.mem_cons.mp ht with heq | hmem
      · subst heq
        rw [if_neg (by simp [hne])]
        by_cases h2 : (lookupC cache (lang, normalizeCE t)).isSome
        · exact Or.inr (Or.inl h2)
        · rw [if_neg h2]
          by_cases h3 : normalizeCE t ∈ seen
          · exact Or.inr (Or.inr h3)
          · rw [if_neg h3]
            exact Or.inl (by simp)
      · by_cases h1 : (normalizeCE u).isEmpty
        · rw [if_pos h1]
          exact ih seen t hmem hne
        · rw [if_neg h1]
          by_cases h2 : (lookupC cache (lang, normalizeCE u)).isSome
          · rw [if_pos h2]
            exact ih seen t hmem hne
          · rw [if_neg h2]
            by_cases h3 : normalizeCE u ∈ seen
            · rw [if_pos h3]
              exact ih seen t hmem hne
            · rw [if_neg h3]
              rcases ih (normalizeCE u :: seen) t hmem hne with h | h | h
              · exact Or.inl (by simp [h])
              · exact Or.inr (Or.inl h)
              · rcases List.mem_cons.mp h with h4 | h4
                · exact Or.inl (by simp [h4])
                · exact Or.inr (Or.inr h4)

theorem filterUniqAux_nodup (lang : List Char) (cache : Cache) :
    ∀ (texts : List (List Char)) (seen : List (List Char)),
      (filterUniqAux lang cache seen texts).Nodup ∧
      (∀ x ∈ filterUniqAux lang cache seen texts, x ∉ seen) := by
  intro texts
  induction texts with
  | nil => intro seen; simp [filterUniqAux]
  | cons t rest ih =>
      intro seen
      unfold filterUniqAux
      by_cases h1 : (normalizeCE t).isEmpty
      · rw [if_pos h1]; exact ih seen
      · rw [if_neg h1]
        by_cases h2 : (lookupC cache (lang, normalizeCE t)).isSome
        · rw [if_pos h2]; exact ih seen
        · rw [if_neg h2]
          by_cases h3 : normalizeCE t ∈ seen
          · rw [if_pos h3]; exact ih seen
          · rw [if_neg h3]
            obtain ⟨hnd, hns⟩ := ih (normalizeCE t :: seen)
            constructor
            · rw [List.nodup_cons]
              refine ⟨?_, hnd⟩
              intro hmem
              exact (hns _ hmem) (by simp)
            · intro x hx
              rcases List.mem_cons.mp hx with heq | hmem
              · subst heq; exact h3
              · intro hxs
                exact (hns x hmem) (by simp [hxs])

theorem dedupFirstAux_covers :
    ∀ (texts seen : List (List Char)), ∀ t ∈ texts,
      t ∈ dedupFirstAux seen texts ∨ t ∈ seen := by
  intro texts
  induction texts with
  | nil => intro seen t ht; simp at ht
  | cons u rest ih =>
      intro seen t ht
      unfold dedupFirstAux
      rcases List.mem_cons.mp ht with heq | hmem
      · subst heq
        by_cases h : t ∈ seen
        · rw [if_pos h]; exact Or.inr h
        · rw [if_neg h]; exact Or.inl (by simp)
      · by_cases h : u ∈ seen
        · rw [if_pos h]; exact ih seen t hmem
        · rw [if_neg h]
          rcases ih (u :: seen) t hmem with h2 | h2
          · exact Or.inl (by simp [h2])
          · rcases List.mem_cons.mp h2 with h3 | h3
            · exact Or.inl (by simp [h3])
            · exact Or.inr h3

/-! ## Chunk processing and the outer loop -/

theorem processChunk_eq_zip (O : Oracle) (lang : List Char) (chunk : List (List Char))
    (c : Cache) (translated : List Char)
    (hres : (translate_google_ce O lang (joinSep sepCE chunk) c).res = some translated)
    (hlen : (splitOnSub sepCE translated).length = chunk.length) :
    processChunk O lang chunk c =
      zipWrite lang chunk (splitOnSub sepCE translated)
        (translate_google_ce O lang (joinSep sepCE chunk) c).cache := by
  simp only [processChunk, hres]
  rw [if_pos hlen]

theorem processChunk_eq_fallback_mismatch (O : Oracle) (lang : List Char)
    (chunk : List (List Char)) (c : Cache) (translated : List Char)
    (hres : (translate_google_ce O lang (joinSep sepCE chunk) c).res = some translated)
    (hlen : (splitOnSub sepCE translated).length ≠ chunk.length) :
    processChunk O lang chunk c =
      fallbackChunk O lang chunk
        (translate_google_ce O lang (joinSep sepCE chunk) c).cache := by
  simp only [processChunk, hres]
  rw [if_neg hlen]

theorem processChunk_eq_fallback_none (O : Oracle) (lang : List Char)
    (chunk : List (List Char)) (c : Cache)
    (hres : (translate_google_ce O lang (joinSep sepCE chunk) c).res = none) :
    processChunk O lang chunk c =
      fallbackChunk O lang chunk
        (translate_google_ce O lang (joinSep sepCE chunk) c).cache := by
  simp only [processChunk, hres]

theorem processChunk_le (O : Oracle) (lang : List Char) (chunk : List (List Char))
    (c : Cache) : cacheLe c (processChunk O lang chunk c) := by
  cases hres : (translate_google_ce O lang (joinSep sepCE chunk) c).res with
  | some translated =>
      by_cases hlen : (splitOnSub sepCE translated).length = chunk.length
      · rw [processChunk_eq_zip O lang chunk c translated hres hlen]
        exact cacheLe_trans (tg_le O lang _ c) (zipWrite_le lang chunk _ _)
      · rw [processChunk_eq_fallback_mismatch O lang chunk c translated hres hlen]
        exact cacheLe_trans (tg_le O lang _ c) (fallback_le O lang chunk _)
  | none =>
      rw [processChunk_eq_fallback_none O lang chunk c hres]
      exact cacheLe_trans (tg_le O lang _ c) (fallback_le O lang chunk _)

theorem processChunk_complete (O : Oracle) (lang : List Char) (chunk : List (List Char))
    (c : Cache) (hsrc : ∀ src ∈ chunk, normalizeCE src = src ∧ src ≠ []) :
    ∀ src ∈ chunk, (lookupC (processChunk O lang chunk c) (lang, src)).isSome := by
  intro src hmem
  cases hres : (translate_google_ce O lang (joinSep sepCE chunk) c).res with
  | some translated =>
      by_cases hlen : (splitOnSub sepCE translated).length = chunk.length
      · rw [processChunk_eq_zip O lang chunk c translated hres hlen]
        exact zipWrite_complete lang chunk _ _ hlen src hmem
      · rw [processChunk_eq_fallback_mismatch O lang chunk c translated hres hlen]
        exact fallback_complete O lang chunk _ hsrc src hmem
  | none =>
      rw [processChunk_eq_fallback_none O lang chunk c hres]
      exact fallback_complete O lang chunk _ hsrc src hmem

theorem runChunks_le (O : Oracle) (lang : List Char) :
    ∀ (chunks : List (List (List Char))) (c : Cache),
      cacheLe c (runChunks O lang chunks c) := by
  intro chunks
  induction chunks with
  | nil => intro c; exact cacheLe_refl c
  | cons k ks ih =>
      intro c
      exact cacheLe_trans (processChunk_le O lang k c) (ih _)

theorem runChunks_complete (O : Oracle) (lang : List Char) :
    ∀ (chunks : List (List (List Char))) (c : Cache),
      (∀ k ∈ chunks, ∀ src ∈ k, normalizeCE src = src ∧ src ≠ []) →
      ∀ k ∈ chunks, ∀ src ∈ k,
        (lookupC (runChunks O lang chunks c) (lang, src)).isSome := by
  intro chunks
  induction chunks with
  | nil => intro c _ k hk; simp at hk
  | cons k0 ks ih =>
      intro c hall k hk src hsrc
      rcases List.mem_cons.mp hk with heq | hmem
      · show (lookupC (runChunks O lang ks (processChunk O lang k0 c)) (lang, src)).isSome
        apply runChunks_le O lang ks
        exact processChunk_complete O lang k0 c (hall k0 (by simp)) src (heq ▸ hsrc)
      · exact ih _ (fun k2 hk2 => hall k2 (by simp [hk2])) k hmem src hsrc

/-- Every phrase of the filtered unique list ends up cached after the run. -/
theorem batch_translate_texts_complete (O : Oracle) (lang : List Char)
    (texts : List (List Char)) (cache : Cache) :
    ∀ t ∈ texts, (normalizeCE t).isEmpty = false →
      (lookupC (batch_translate_texts O lang texts cache) (lang, normalizeCE t)).isSome := by
  intro t ht hne
  unfold batch_translate_texts
  rcases filterUniqAux_covers lang cache texts [] t ht hne with hmem | hsome | habs
  · have hflat : (makeBatches 40 3900 sepCE.length (filterUniq lang cache texts)).flatten =
        filterUniq lang cache texts :=
      makeBatchesW_join 40 3900 sepCE.length _ _ le_rfl
    have hmem2 : normalizeCE t ∈
        (makeBatches 40 3900 sepCE.length (filterUniq lang cache texts)).flatten := by
      rw [hflat]
      exact hmem
    obtain ⟨k, hk, hsrc⟩ := List.mem_flatten.mp hmem2
    refine runChunks_complete O lang _ cache ?_ k hk (normalizeCE t) hsrc
    intro k2 hk2 src hsrc2
    have hsrc3 : src ∈ filterUniq lang cache texts := by
      rw [← hflat]
      exact List.mem_flatten.mpr ⟨k2, hk2, hsrc2⟩
    obtain ⟨⟨t', _, he⟩, hne2, _⟩ := filterUniqAux_shape lang cache texts [] src hsrc3
    exact ⟨by rw [he, normalizeCE_idem], hne2⟩
  · exact runChunks_le O lang _ cache _ hsome
  · simp at habs

/-! ## Result-mapping lemmas for `batch_translate_visible_nodes.py` -/

theorem lookupO_insert_self (out : OutMap) (k v : List Char) :
    lookupO (insertO out k v) k = some v := by
  simp [lookupO, insertO, List.find?]

theorem lookupO_insert_isSome (out : OutMap) (k k' v : List Char)
    (h : (lookupO out k').isSome) : (lookupO (insertO out k v) k').isSome := by
  by_cases hk : k = k'
  · subst hk
    rw [lookupO_insert_self]
    rfl
  · have hd : decide (k = k') = false := by simp [hk]
    simp only [lookupO, insertO, List.find?, hd]
    exact h

theorem fallbackVN_cons_some (O : OracleVN) (lang src : List Char)
    (ss : List (List Char)) (out : OutMap) (v : List Char)
    (h : translate_google_vn O lang src = some v) :
    fallbackVN O lang (src :: ss) out = fallbackVN O lang ss (insertO out src v) := by
  simp only [fallbackVN, h]

theorem fallbackVN_cons_none (O : OracleVN) (lang src : List Char)
    (ss : List (List Char)) (out : OutMap)
    (h : translate_google_vn O lang src = none) :
    fallbackVN O lang (src :: ss) out = fallbackVN O lang ss (insertO out src src) := by
  simp only [fallbackVN, h]

theorem fallbackVN_le (O : OracleVN) (lang : List Char) :
    ∀ (ss : List (List Char)) (out : OutMap) (k : List Char),
      (lookupO out k).isSome → (lookupO (fallbackVN O lang ss out) k).isSome := by
  intro ss
  induction ss with
  | nil => intro out k h; exact h
  | cons src rest ih =>
      intro out k h
      cases hres : translate_google_vn O lang src with
      | some v =>
          rw [fallbackVN_cons_some O lang src rest out v hres]
          exact ih _ k (lookupO_insert_isSome out src k v h)
      | none =>
          rw [fallbackVN_cons_none O lang src rest out hres]
          exact ih _ k (lookupO_insert_isSome out src k src h)

theorem fallbackVN_complete (O : OracleVN) (lang : List Char) :
    ∀ (ss : List (List Char)) (out : OutMap), ∀ src ∈ ss,
      (lookupO (fallbackVN O lang ss out) src).isSome := by
  intro ss
  induction ss with
  | nil => intro out src h; simp at h
  | cons s rest ih =>
      intro out src hsrc
      rcases List.mem_cons.mp hsrc with heq | hmem
      · cases hres : translate_google_vn O lang s with
        | some v =>
            rw [fallbackVN_cons_some O lang s rest out v hres]
            apply fallbackVN_le O lang rest
            rw [heq, lookupO_insert_self]
            rfl
        | none =>
            rw [fallbackVN_cons_none O lang s rest out hres]
            apply fallbackVN_le O lang rest
            rw [heq, lookupO_insert_self]
            rfl
      · cases hres : translate_google_vn O lang s with
        | some v =>
            rw [fallbackVN_cons_some O lang s rest out v hres]
            exact ih _ src hmem
        | none =>
            rw [fallbackVN_cons_none O lang s rest out hres]
            exact ih _ src hmem

theorem zipWriteVN_le :
    ∀ (ss ps : List (List Char)) (out : OutMap) (k : List Char),
      (lookupO out k).isSome → (lookupO (zipWriteVN ss ps out) k).isSome := by
  intro ss
  induction ss with
  | nil => intro ps out k h; exact h
  | cons s rest ih =>
      intro ps out k h
      cases ps with
      | nil => exact h
      | cons p ps' => exact ih ps' _ k (lookupO_insert_isSome out s k _ h)

theorem zipWriteVN_complete :
    ∀ (ss ps : List (List Char)) (out : OutMap), ps.length = ss.length →
      ∀ src ∈ ss, (lookupO (zipWriteVN ss ps out) src).isSome := by
  intro ss
  induction ss with
  | nil => intro ps out _ src h; simp at h
  | cons s rest ih =>
      intro ps out hlen src hsrc
      cases ps with
      | nil => simp at hlen
      | cons p ps' =>
          rcases List.mem_cons.mp hsrc with heq | hmem
          · apply zipWriteVN_le rest ps'
            rw [heq, lookupO_insert_self]
            rfl
          · exact ih ps' _ (by simpa using hlen) src hmem

theorem processChunkVN_eq_fallback_mismatch (O : OracleVN) (lang : List Char)
    (chunk : List (List Char)) (out : OutMap) (translated : List Char)
    (hres : translate_google_vn O lang (joinSep sepVN chunk) = some translated)
    (hlen : (splitOnSub sepVN translated).length ≠ chunk.length) :
    processChunkVN O lang chunk out = fallbackVN O lang chunk out := by
  simp only [processChunkVN, hres]
  rw [if_neg hlen]

theorem processChunkVN_complete (O : OracleVN) (lang : List Char)
    (chunk : List (List Char)) (out : OutMap) :
    ∀ src ∈ chunk, (lookupO (processChunkVN O lang chunk out) src).isSome := by
  intro src hmem
  cases hres : translate_google_vn O lang (joinSep sepVN chunk) with
  | some translated =>
      by_cases hlen : (splitOnSub sepVN translated).length = chunk.length
      · have hz : processChunkVN O lang chunk out =
            zipWriteVN chunk (splitOnSub sepVN translated) out := by
          simp only [processChunkVN, hres]
          rw [if_pos hlen]
        rw [hz]
        exact zipWriteVN_complete chunk _ out hlen src hmem
      · rw [processChunkVN_eq_fallback_mismatch O lang chunk out translated hres hlen]
        exact fallbackVN_complete O lang chunk out src hmem
  | none =>
      have hf : processChunkVN O lang chunk out = fallbackVN O lang chunk out := by
        simp only [processChunkVN, hres]
      rw [hf]
      exact fallbackVN_complete O lang chunk out src hmem

theorem runChunksVN_le (O : OracleVN) (lang : List Char) :
    ∀ (chunks : List (List (List Char))) (out : OutMap) (k : List Char),
      (lookupO out k).isSome → (lookupO (runChunksVN O lang chunks out) k).isSome := by
  intro chunks
  induction chunks with
  | nil => intro out k h; exact h
  | cons k0 ks ih =>
      intro out k h
      apply ih
      cases hres : translate_google_vn O lang (joinSep sepVN k0) with
      | some translated =>
          by_cases hlen : (splitOnSub sepVN translated).length = k0.length
          · have hz : processChunkVN O lang k0 out =
                zipWriteVN k0 (splitOnSub sepVN translated) out := by
              simp only [processChunkVN, hres]
              rw [if_pos hlen]
            rw [hz]
            exact zipWriteVN_le k0 _ out k h
          · rw [processChunkVN_eq_fallback_mismatch O lang k0 out translated hres hlen]
            exact fallbackVN_le O lang k0 out k h
      | none =>
          have hf : processChunkVN O lang k0 out = fallbackVN O lang k0 out := by
            simp only [processChunkVN, hres]
          rw [hf]
          exact fallbackVN_le O lang k0 out k h

theorem runChunksVN_complete (O : OracleVN) (lang : List Char) :
    ∀ (chunks : List (List (List Char))) (out : OutMap), ∀ k ∈ chunks, ∀ src ∈ k,
      (lookupO (runChunksVN O lang chunks out) src).isSome := by
  intro chunks
  induction chunks with
  | nil => intro out k hk; simp at hk
  | cons k0 ks ih =>
      intro out k hk src hsrc
      rcases List.mem_cons.mp hk with heq | hmem
      · show (lookupO (runChunksVN O lang ks (processChunkVN O lang k0 out)) src).isSome
        apply runChunksVN_le O lang ks
        exact processChunkVN_complete O lang k0 out src (heq ▸ hsrc)
      · exact ih _ k hmem src hsrc

/-- `batch_translate` of `batch_translate_visible_nodes.py` yields an entry
for every input phrase, on every oracle behavior. -/
theorem batch_translate_vn_complete (O : OracleVN) (lang : List Char)
    (texts : List (List Char)) :
    ∀ t ∈ texts, (lookupO (batch_translate_vn O lang texts) t).isSome := by
  intro t ht
  unfold batch_translate_vn
  rcases dedupFirstAux_covers texts [] t ht with hmem | habs
  · have hflat : (makeBatches 35 3800 sepVN.length (dedupFirst texts)).flatten =
        dedupFirst texts :=
      makeBatchesW_join 35 3800 sepVN.length _ _ le_rfl
    have hmem2 : t ∈ (makeBatches 35 3800 sepVN.length (dedupFirst texts)).flatten := by
      rw [hflat]
      exact hmem
    obtain ⟨k, hk, hsrc⟩ := List.mem_flatten.mp hmem2
    exact runChunksVN_complete O lang _ [] k hk t hsrc
  · simp at habs

/-- C1: if splitting a translated batch on the sentinel yields a part count
different from the batch size, the batch is abandoned and processed by the
per-phrase fallback instead (clauses 1 and 4, for the cache variant of
`complete_existing_course_translations.py` and the result-mapping variant of
`batch_translate_visible_nodes.py`); after the fallback runs, every phrase of
the batch is present under its own key (clause 2); and at the level of a whole
run every input phrase ends up present in the cache (clause 3) or result
mapping (clause 5), whatever the oracle does. -/
theorem batch_split_mismatch_fallback (O : Oracle) (OV : OracleVN) (lang : List Char)
    (chunk : List (List Char)) (cache : Cache) (texts : List (List Char)) (out : OutMap) :
    (∀ translated,
      (translate_google_ce O lang (joinSep sepCE chunk) cache).res = some translated →
      (splitOnSub sepCE translated).length ≠ chunk.length →
      processChunk O lang chunk cache =
        fallbackChunk O lang chunk
          (translate_google_ce O lang (joinSep sepCE chunk) cache).cache) ∧
    ((∀ src ∈ chunk, normalizeCE src = src ∧ src ≠ []) →
      ∀ src ∈ chunk, (lookupC (fallbackChunk O lang chunk cache) (lang, src)).isSome) ∧
    (∀ t ∈ texts, (normalizeCE t).isEmpty = false →
      (lookupC (batch_translate_texts O lang texts cache) (lang, normalizeCE t)).isSome) ∧
    (∀ translated, translate_google_vn OV lang (joinSep sepVN chunk) = some translated →
      (splitOnSub sepVN translated).length ≠ chunk.length →
      processChunkVN OV lang chunk out = fallbackVN OV lang chunk out) ∧
    (∀ t ∈ texts, (lookupO (batch_translate_vn OV lang texts) t).isSome) :=
  ⟨fun tr hres hlen => processChunk_eq_fallback_mismatch O lang chunk cache tr hres hlen,
   fun h src hsrc => fallback_complete O lang chunk cache h src hsrc,
   fun t ht hne => batch_translate_texts_complete O lang texts cache t ht hne,
   fun tr hres hlen => processChunkVN_eq_fallback_mismatch OV lang chunk out tr hres hlen,
   fun t ht => batch_translate_vn_complete OV lang texts t ht⟩

/-- Witness for `batch_split_mismatch_fallback`: a service that answers every
request with the single string `X` causes a split-count mismatch on a
two-phrase batch (1 part against 2 phrases), and both phrases still end up
present after the run. -/
theorem batch_split_mismatch_fallback_check :
    processChunk (fun _ _ _ => some ['X']) ['f', 'r'] [['a', 'a'], ['b', 'b']] [] =
      fallbackChunk (fun _ _ _ => some ['X']) ['f', 'r'] [['a', 'a'], ['b', 'b']]
        (translate_google_ce (fun _ _ _ => some ['X']) ['f', 'r']
          (joinSep sepCE [['a', 'a'], ['b', 'b']]) []).cache ∧
    (lookupC (batch_translate_texts (fun _ _ _ => some ['X']) ['f', 'r']
        [['a', 'a'], ['b', 'b']] [])
      (['f', 'r'], normalizeCE ['a', 'a'])).isSome ∧
    (lookupO (batch_translate_vn (fun _ _ => some ['X']) ['f', 'r']
        [['a', 'a'], ['b', 'b']]) ['a', 'a']).isSome :=
  ⟨(batch_split_mismatch_fallback (fun _ _ _ => some ['X']) (fun _ _ => some ['X'])
      ['f', 'r'] [['a', 'a'], ['b', 'b']] [] [['a', 'a'], ['b', 'b']] []).1
      ['X'] (by decide) (by decide),
   (batch_split_mismatch_fallback (fun _ _ _ => some ['X']) (fun _ _ => some ['X'])
      ['f', 'r'] [['a', 'a'], ['b', 'b']] [] [['a', 'a'], ['b', 'b']] []).2.2.1
      ['a', 'a'] (by decide) (by decide),
   (batch_split_mismatch_fallback (fun _ _ _ => some ['X']) (fun _ _ => some ['X'])
      ['f', 'r'] [['a', 'a'], ['b', 'b']] [] [['a', 'a'], ['b', 'b']] []).2.2.2.2
      ['a', 'a'] (by decide)⟩

/-! ## Value preservation (no overwrites) for sentinel-free phrases -/

theorem tg_miss_shape (O : Oracle) (lang text : List Char) (c : Cache)
    (hne : (normalizeCE text).isEmpty = false)
    (hmiss : lookupC c (lang, normalizeCE text) = none) :
    ((translate_google_ce O lang text c).res = none ∧
      (translate_google_ce O lang text c).cache = c) ∨
    (∃ v, (translate_google_ce O lang text c).res = some v ∧ v ≠ [] ∧ stripWS v = v ∧
      (translate_google_ce O lang text c).cache = insertC c (lang, normalizeCE text) v) := by
  unfold translate_google_ce
  rw [if_neg (by simp [hne]), hmiss]
  exact tgTry_shape O lang (normalizeCE text) c 3 0

theorem isEmpty_false_of_ne (l : List Char) (h : l ≠ []) : l.isEmpty = false := by
  cases l with
  | nil => exact absurd rfl h
  | cons a b => rfl

/-- Processing one chunk never changes the value of an existing cache entry,
provided the chunk phrases are normalized, nonempty, sentinel-free, distinct,
and not yet cached. -/
theorem processChunk_ext (O : Oracle) (lang : List Char) (chunk : List (List Char))
    (c : Cache)
    (hsrc : ∀ src ∈ chunk, normalizeCE src = src ∧ src ≠ [] ∧ ¬ sepCE <:+: src)
    (hnd : chunk.Nodup)
    (habs : ∀ src ∈ chunk, lookupC c (lang, src) = none) :
    cacheExt c (processChunk O lang chunk c) := by
  cases chunk with
  | nil =>
      have heq : processChunk O lang [] c = c := rfl
      rw [heq]
      exact cacheExt_refl c
  | cons x rest =>
    cases rest with
    | nil =>
        obtain ⟨hfix, hne, _⟩ := hsrc x (by simp)
        have hemp : (normalizeCE x).isEmpty = false := by
          rw [hfix]
          exact isEmpty_false_of_ne x hne
        have hjoin : joinSep sepCE [x] = x := rfl
        have habsx : lookupC c (lang, x) = none := habs x (by simp)
        have hne' : (normalizeCE (joinSep sepCE [x])).isEmpty = false := by
          rw [hjoin]
          exact hemp
        have hmiss' : lookupC c (lang, normalizeCE (joinSep sepCE [x])) = none := by
          rw [hjoin, hfix]
          exact habsx
        rcases tg_miss_shape O lang (joinSep sepCE [x]) c hne' hmiss'
          with ⟨h1, h2⟩ | ⟨v, h1, hv1, hv2, h3⟩
        · rw [processChunk_eq_fallback_none O lang [x] c h1, h2]
          exact fallback_ext O lang [x] c (fun s hs => by
            have : s = x := by simpa using hs
            exact this ▸ ⟨hfix, hne⟩)
        · have h3' : (translate_google_ce O lang (joinSep sepCE [x]) c).cache =
              insertC c (lang, x) v := by
            rw [h3, hjoin, hfix]
          by_cases hlen : (splitOnSub sepCE v).length = ([x] : List (List Char)).length
          · rw [processChunk_eq_zip O lang [x] c v h1 hlen]
            have hparts : splitOnSub sepCE v = [v] :=
              splitOnSub_len_one sepCE v (by simpa using hlen)
            rw [hparts, h3']
            have hz : zipWrite lang [x] [v] (insertC c (lang, x) v) =
                insertC (insertC c (lang, x) v) (lang, x)
                  (if (stripWS v).isEmpty then x else stripWS v) := rfl
            rw [hz, hv2, if_neg (by simp [isEmpty_false_of_ne v hv1])]
            refine cacheExt_trans (cacheExt_insert_fresh c (lang, x) v habsx) ?_
            exact cacheExt_insert_same _ (lang, x) v (lookupC_insert_self c (lang, x) v)
          · rw [processChunk_eq_fallback_mismatch O lang [x] c v h1 hlen, h3']
            refine cacheExt_trans (cacheExt_insert_fresh c (lang, x) v habsx) ?_
            exact fallback_ext O lang [x] _ (fun s hs => by
              have : s = x := by simpa using hs
              exact this ▸ ⟨hfix, hne⟩)
    | cons y t =>
        have hext1 : cacheExt c (translate_google_ce O lang
            (joinSep sepCE (x :: y :: t)) c).cache :=
          tg_ext O lang _ c
        have hinfix : sepCE <:+: joinSep sepCE (x :: y :: t) := joinSep_sep_infix x y t
        have hjfix : normalizeCE (joinSep sepCE (x :: y :: t)) =
            joinSep sepCE (x :: y :: t) := by
          apply wsOk_norm_fixed
          exact (joinSep_wsOk (x :: y :: t) (by simp) (fun z hz =>
            ⟨wsOk_of_fixed z (hsrc z hz).1, (hsrc z hz).2.1⟩)).1
        have habs' : ∀ src ∈ x :: y :: t,
            lookupC (translate_google_ce O lang (joinSep sepCE (x :: y :: t)) c).cache
              (lang, src) = none := by
          intro src hs
          cases hl : lookupC (translate_google_ce O lang
              (joinSep sepCE (x :: y :: t)) c).cache (lang, src) with
          | none => rfl
          | some w =>
              exfalso
              have hsome : (lookupC (translate_google_ce O lang
                  (joinSep sepCE (x :: y :: t)) c).cache (lang, src)).isSome := by
                rw [hl]; rfl
              rcases tg_dom O lang (joinSep sepCE (x :: y :: t)) c (lang, src) hsome
                with h2 | h2
              · rw [habs src hs] at h2
                simp at h2
              · injection h2 with _ h3
                rw [hjfix] at h3
                exact (hsrc src hs).2.2 (h3 ▸ hinfix)
        cases hres : (translate_google_ce O lang (joinSep sepCE (x :: y :: t)) c).res with
        | none =>
            rw [processChunk_eq_fallback_none O lang (x :: y :: t) c hres]
            exact cacheExt_trans hext1
              (fallback_ext O lang (x :: y :: t) _ (fun s hs =>
                ⟨(hsrc s hs).1, (hsrc s hs).2.1⟩))
        | some translated =>
            by_cases hlen : (splitOnSub sepCE translated).length =
                (x :: y :: t : List (List Char)).length
            · rw [processChunk_eq_zip O lang (x :: y :: t) c translated hres hlen]
              exact cacheExt_trans hext1
                (zipWrite_ext_fresh lang (x :: y :: t) _ _ hnd habs')
            · rw [processChunk_eq_fallback_mismatch O lang (x :: y :: t) c translated
                hres hlen]
              exact cacheExt_trans hext1
                (fallback_ext O lang (x :: y :: t) _ (fun s hs =>
                  ⟨(hsrc s hs).1, (hsrc s hs).2.1⟩))

/-- Keys added while processing a chunk: the joined-request key or a phrase
key of the chunk. -/
theorem processChunk_dom (O : Oracle) (lang : List Char) (chunk : List (List Char))
    (c : Cache) (hsrc : ∀ src ∈ chunk, normalizeCE src = src) :
    ∀ k, (lookupC (processChunk O lang chunk c) k).isSome →
      (lookupC c k).isSome ∨ k = (lang, normalizeCE (joinSep sepCE chunk)) ∨
        ∃ src ∈ chunk, k = (lang, src) := by
  intro k hk
  cases hres : (translate_google_ce O lang (joinSep sepCE chunk) c).res with
  | some translated =>
      by_cases hlen : (splitOnSub sepCE translated).length = chunk.length
      · rw [processChunk_eq_zip O lang chunk c translated hres hlen] at hk
        rcases zipWrite_dom lang chunk _ _ k hk with h2 | h2
        · rcases tg_dom O lang (joinSep sepCE chunk) c k h2 with h3 | h3
          · exact Or.inl h3
          · exact Or.inr (Or.inl h3)
        · exact Or.inr (Or.inr h2)
      · rw [processChunk_eq_fallback_mismatch O lang chunk c translated hres hlen] at hk
        rcases fallback_dom O lang chunk _ hsrc k hk with h2 | h2
        · rcases tg_dom O lang (joinSep sepCE chunk) c k h2 with h3 | h3
          · exact Or.inl h3
          · exact Or.inr (Or.inl h3)
        · exact Or.inr (Or.inr h2)
  | none =>
      rw [processChunk_eq_fallback_none O lang chunk c hres] at hk
      rcases fallback_dom O lang chunk _ hsrc k hk with h2 | h2
      · rcases tg_dom O lang (joinSep sepCE chunk) c k h2 with h3 | h3
        · exact Or.inl h3
        · exact Or.inr (Or.inl h3)
      · exact Or.inr (Or.inr h2)

/-- A sentinel-free phrase not in a chunk differs from the chunk's joined
request key. -/
theorem joined_key_fresh (k0 : List (List Char)) (src : List Char)
    (hsrc0 : ∀ z ∈ k0, normalizeCE z = z ∧ z ≠ [])
    (hsep : ¬ sepCE <:+: src) (hne : src ≠ [])
    (hnotin : src ∉ k0) :
    src ≠ normalizeCE (joinSep sepCE k0) := by
  cases k0 with
  | nil =>
      intro h
      have hz : normalizeCE (joinSep sepCE ([] : List (List Char))) = [] := rfl
      rw [hz] at h
      exact hne h
  | cons x rest =>
    cases rest with
    | nil =>
        intro h
        have hx := (hsrc0 x (by simp)).1
        rw [show joinSep sepCE [x] = x from rfl, hx] at h
        exact hnotin (by simp [h])
    | cons y t =>
        intro h
        have hjfix : normalizeCE (joinSep sepCE (x :: y :: t)) =
            joinSep sepCE (x :: y :: t) := by
          apply wsOk_norm_fixed
          exact (joinSep_wsOk (x :: y :: t) (by simp) (fun z hz =>
            ⟨wsOk_of_fixed z (hsrc0 z hz).1, (hsrc0 z hz).2⟩)).1
        rw [hjfix] at h
        exact hsep (h ▸ joinSep_sep_infix x y t)

/-- Running all chunks preserves every preexisting cache entry, provided the
chunk phrases are normalized, nonempty, sentinel-free, globally distinct and
uncached. -/
theorem runChunks_ext (O : Oracle) (lang : List Char) :
    ∀ (chunks : List (List (List Char))) (c : Cache),
      (∀ k ∈ chunks, ∀ src ∈ k, normalizeCE src = src ∧ src ≠ [] ∧ ¬ sepCE <:+: src) →
      chunks.flatten.Nodup →
      (∀ k ∈ chunks, ∀ src ∈ k, lookupC c (lang, src) = none) →
      cacheExt c (runChunks O lang chunks c) := by
  intro chunks
  induction chunks with
  | nil => intro c _ _ _; exact cacheExt_refl c
  | cons k0 ks ih =>
      intro c hsrc hnd habs
      have hnd' := hnd
      rw [List.flatten_cons] at hnd'
      have hnd0 : k0.Nodup := (List.nodup_append.mp hnd').1
      have hndks : ks.flatten.Nodup := (List.nodup_append.mp hnd').2.1
      have hdisj : ∀ s, s ∈ k0 → s ∈ ks.flatten → False :=
        fun s h1 h2 => (List.nodup_append.mp hnd').2.2 h1 h2
      have hstep : cacheExt c (processChunk O lang k0 c) :=
        processChunk_ext O lang k0 c (hsrc k0 (by simp)) hnd0 (habs k0 (by simp))
      have habs1 : ∀ k ∈ ks, ∀ src ∈ k,
          lookupC (processChunk O lang k0 c) (lang, src) = none := by
        intro k hk src hs
        cases hl : lookupC (processChunk O lang k0 c) (lang, src) with
        | none => rfl
        | some w =>
            exfalso
            have hsome : (lookupC (processChunk O lang k0 c) (lang, src)).isSome := by
              rw [hl]; rfl
            have hflatmem : src ∈ ks.flatten := List.mem_flatten.mpr ⟨k, hk, hs⟩
            have hsrck := hsrc k (List.mem_cons_of_mem _ hk) src hs
            rcases processChunk_dom O lang k0 c
                (fun z hz => (hsrc k0 (by simp) z hz).1) (lang, src) hsome
              with h2 | h2 | ⟨s0, hs0, h2⟩
            · rw [habs k (List.mem_cons_of_mem _ hk) src hs] at h2
              simp at h2
            · injection h2 with _ h3
              exact joined_key_fresh k0 src
                (fun z hz => ⟨(hsrc k0 (by simp) z hz).1, (hsrc k0 (by simp) z hz).2.1⟩)
                hsrck.2.2 hsrck.2.1
                (fun hm => hdisj src hm hflatmem) h3
            · injection h2 with _ h3
              exact hdisj s0 hs0 (h3 ▸ hflatmem)
      exact cacheExt_trans hstep
        (ih _ (fun k hk => hsrc k (List.mem_cons_of_mem _ hk)) hndks habs1)

/-- C6, counterexample: the cache entry of a present key IS overwritten with a
different value by a later operation of the same run. After the first chunk of
`batch_translate_texts oracleC6 langC6 textsC6 []` the key `(langC6, cBigC6)`
holds `cBigC6`; the full run (which continues from exactly that intermediate
cache, third and fourth conjuncts) ends with the same key holding the
different value PP, because `cBigC6` is both the joined request text of the
first chunk and the first phrase of the second chunk. -/
theorem cache_overwrite_on_sentinel_collision :
    lookupC (runChunks oracleC6 langC6 [xs40C6] []) (langC6, cBigC6) = some cBigC6 ∧
    lookupC (batch_translate_texts oracleC6 langC6 textsC6 []) (langC6, cBigC6)
      = some (['P', 'P']) ∧
    batch_translate_texts oracleC6 langC6 textsC6 []
      = runChunks oracleC6 langC6 [xs40C6, [cBigC6, dC6]] [] ∧
    runChunks oracleC6 langC6 [xs40C6, [cBigC6, dC6]] []
      = runChunks oracleC6 langC6 [[cBigC6, dC6]] (runChunks oracleC6 langC6 [xs40C6] []) ∧
    cBigC6 ≠ ['P', 'P'] :=
  ⟨by decide, by decide, by decide, rfl, by decide⟩

/-- C6, amended: the translation cache is consulted before the network (a hit
returns the cached value with cache unchanged and no sleeping), it is
populated at the request key immediately after a success, its key set grows
monotonically over a whole batch run, and, when no input text normalizes to a
string containing the separator sentinel, every present entry also keeps its
value for the whole run. -/
theorem translation_cache_monotone (O : Oracle) (lang : List Char)
    (texts : List (List Char)) (cache : Cache)
    (hsep : ∀ t ∈ texts, ¬ sepCE <:+: normalizeCE t) :
    (∀ text v, (normalizeCE text).isEmpty = false →
        lookupC cache (lang, normalizeCE text) = some v →
        translate_google_ce O lang text cache = ⟨some v, cache, []⟩) ∧
    (∀ text v, (normalizeCE text).isEmpty = false →
        (translate_google_ce O lang text cache).res = some v →
        lookupC (translate_google_ce O lang text cache).cache
          (lang, normalizeCE text) = some v) ∧
    cacheLe cache (batch_translate_texts O lang texts cache) ∧
    cacheExt cache (batch_translate_texts O lang texts cache) := by
  refine ⟨fun text v hne h => tg_hit O lang text cache v hne h,
          fun text v hne h => tg_success_key O lang text cache v hne h,
          ?_, ?_⟩
  · unfold batch_translate_texts
    exact runChunks_le O lang _ cache
  · unfold batch_translate_texts
    have hflat : (makeBatches 40 3900 sepCE.length (filterUniq lang cache texts)).flatten
        = filterUniq lang cache texts :=
      makeBatchesW_join 40 3900 sepCE.length _ _ (Nat.le_refl _)
    apply runChunks_ext
    · intro k hk src hs
      have hmem : src ∈ filterUniq lang cache texts := by
        rw [← hflat]
        exact List.mem_flatten.mpr ⟨k, hk, hs⟩
      obtain ⟨⟨t, ht, hteq⟩, hne, habs⟩ :=
        filterUniqAux_shape lang cache texts [] src hmem
      refine ⟨?_, hne, ?_⟩
      · rw [hteq]
        exact normalizeCE_idem t
      · rw [hteq]
        exact hsep t ht
    · rw [hflat]
      exact (filterUniqAux_nodup lang cache texts []).1
    · intro k hk src hs
      have hmem : src ∈ filterUniq lang cache texts := by
        rw [← hflat]
        exact List.mem_flatten.mpr ⟨k, hk, hs⟩
      exact (filterUniqAux_shape lang cache texts [] src hmem).2.2

/-- Instantiation of the amended C6 theorem: a preexisting entry keeps its
value across a run on sentinel-free input. -/
theorem translation_cache_monotone_check :
    lookupC (batch_translate_texts (fun _ _ _ => some ['X']) ['f', 'r'] [['a']]
      [((['f', 'r'], ['b']), ['B'])]) (['f', 'r'], ['b']) = some ['B'] :=
  (translation_cache_monotone (fun _ _ _ => some ['X']) ['f', 'r'] [['a']]
      [((['f', 'r'], ['b']), ['B'])] (by decide)).2.2.2 (['f', 'r'], ['b']) ['B'] (by decide)

end Synthesis
